import Mathlib

/-!
# LR(0) item-set construction (`Code.cpp`)

A shallow embedding of `closureLR0`, `gotoLR0` and `constructLR0ParsingTable`.

* `std::string` is a Lean `String`; `std::map<string, vector<string>>` is the list of its
  entries in key order; `std::set<LR0Item>` is the list of its elements in iteration order
  (ascending); `std::vector` is a `List`.
* `std::string::substr` throws `std::out_of_range` when the position is past the end: the
  functions return `Except Fault _`.
* The two unbounded loops (`while (changed)` and the worklist `for` over a growing vector) and
  the range-`for` over a set that grows while it is iterated run on a fuel counter computed from
  the input; running out of it is the fault `Fault.outOfFuel`, and the theorems below show that
  it never happens.
* `int`/`size_t` values are unbounded integers: every index and dot position the program
  computes is bounded by the number of states or the length of a production plus one.
-/

namespace LR0

/-- The faults of a run: `substr` past the end, `items[0]` of an empty vector, and fuel. -/
inductive Fault where
  | outOfRange
  | emptyVector
  | outOfFuel
deriving DecidableEq, Repr

/-- Results of type `Except` are compared by cases. -/
instance instDecidableEqExcept {ε α : Type} [DecidableEq ε] [DecidableEq α] :
    DecidableEq (Except ε α)
  | .ok a, .ok b => if h : a = b then isTrue (by rw [h]) else isFalse (fun h' => h (by cases h'; rfl))
  | .error a, .error b =>
    if h : a = b then isTrue (by rw [h]) else isFalse (fun h' => h (by cases h'; rfl))
  | .ok _, .error _ => isFalse (fun h' => by cases h')
  | .error _, .ok _ => isFalse (fun h' => by cases h')

/-- The struct `LR0Item` (lines 9-18): the text of a production and an `int` dot position. -/
structure LR0Item where
  production : String
  dotPosition : Int
deriving DecidableEq, Repr

/-- The type `map<string, vector<string>>`: its entries, in the order a range-`for` visits. -/
abbrev Grammar := List (String × List String)

/-- The type `set<LR0Item>`: its elements, in ascending order. -/
abbrev ItemSet := List LR0Item

/-- The type `map<pair<int, string>, int>`: its entries, in ascending key order. -/
abbrev Transitions := List ((Nat × String) × Nat)

/-- The call `s.substr(pos, n)`: throws when `pos > s.size()` (a negative `int` converts to a
huge `size_t`), otherwise the at most `n` characters from `pos` on. -/
def substr (s : String) (pos : Int) (n : Nat) : Except Fault String :=
  if 0 ≤ pos ∧ pos ≤ (s.length : Int) then .ok (String.mk ((s.data.drop pos.toNat).take n))
  else .error .outOfRange

/-- The character `s[i]` for `i ≤ s.size()`: the terminating `'\0'` at `i = s.size()`. -/
def charAt (s : String) (i : Nat) : Char :=
  s.data.getD i (Char.ofNat 0)

/-- The comparison `a < b` of two `std::string`s, on their characters: the first differing
character decides, and a proper initial segment is smaller. -/
def textLt : List Char → List Char → Bool
  | _, [] => false
  | [], _ :: _ => true
  | a :: as, b :: bs => decide (a.toNat < b.toNat) || (decide (a = b) && textLt as bs)

/-- The ordering of `set<LR0Item>`. `Code.cpp` declares no `operator<` for `LR0Item`; the
order taken here is the memberwise one, `production` first and `dotPosition` second. -/
def itemLt (a b : LR0Item) : Bool :=
  textLt a.production.data b.production.data ||
    (decide (a.production = b.production) && decide (a.dotPosition < b.dotPosition))

/-- The call `set.insert(x)` / `set.emplace(...)`: ordered insertion, no duplicate. -/
def setInsert (x : LR0Item) : ItemSet → ItemSet
  | [] => [x]
  | y :: ys =>
    if itemLt x y then x :: y :: ys
    else if x = y then y :: ys
    else y :: setInsert x ys

/-- The ordering of the keys `pair<int, string>` of the transition map. -/
def keyLt (a b : Nat × String) : Bool :=
  decide (a.1 < b.1) || (decide (a.1 = b.1) && textLt a.2.data b.2.data)

/-- The assignment `transitions[k] = v`: the entry of `k` is created or overwritten. -/
def mapAssign (k : Nat × String) (v : Nat) : Transitions → Transitions
  | [] => [(k, v)]
  | (k', v') :: rest =>
    if keyLt k k' then (k, v) :: (k', v') :: rest
    else if k = k' then (k, v) :: rest
    else (k', v') :: mapAssign k v rest

/-- The call `std::find(first, last, a)`, as the distance of its result from `first`: the
position of the first element equal to `a`, and the length when there is none. -/
def findIndex {α : Type} [DecidableEq α] (a : α) : List α → Nat
  | [] => 0
  | b :: rest => if b = a then 0 else findIndex a rest + 1

/-- The call `transitions.find(k)`: the value stored under `k`, if any. -/
def mapFind (k : Nat × String) (t : Transitions) : Option Nat :=
  (t.find? (fun e => decide (e.1 = k))).map Prod.snd

/-- The call `grammar.find(sym)` followed by `grammar.at(sym)`. -/
def grammarFind (sym : String) (g : Grammar) : Option (List String) :=
  (g.find? (fun e => decide (e.1 = sym))).map Prod.snd

/-- Every production text of the grammar, in iteration order. -/
def allProductions (g : Grammar) : List String :=
  (g.map Prod.snd).flatten

/-- The function `generateLR0Items` (lines 29-37): for every entry of the map, the items
`(key, 0), ..., (key, number of productions of the key)`. -/
def generateLR0Items (g : Grammar) : List LR0Item :=
  (g.map (fun production =>
    (List.range (production.2.length + 1)).map
      (fun (i : Nat) => ({ production := production.1, dotPosition := (i : Int) } : LR0Item)))).flatten

/-- Lines 47-53: the loop over `grammar.at(symbolAfterDot)`. -/
def addProductions : List String → ItemSet → Bool → ItemSet × Bool
  | [], closure, changed => (closure, changed)
  | prod :: rest, closure, changed =>
    if ({ production := prod, dotPosition := 0 } : LR0Item) ∈ closure then
      addProductions rest closure changed
    else
      addProductions rest (setInsert { production := prod, dotPosition := 0 } closure) true

/-- Lines 45-54: the body of the range-`for` of `closureLR0` at `currentItem`. -/
def visitItem (g : Grammar) (currentItem : LR0Item) (closure : ItemSet) (changed : Bool) :
    Except Fault (ItemSet × Bool) :=
  match substr currentItem.production currentItem.dotPosition 1 with
  | .error e => .error e
  | .ok symbolAfterDot =>
    match grammarFind symbolAfterDot g with
    | none => .ok (closure, changed)
    | some prods => .ok (addProductions prods closure changed)

/-- Lines 44-55 from `currentItem` on: the body runs at `currentItem`, then the iterator moves
to the next larger element of the set as it is then (elements inserted behind the iterator are
not visited in this pass, elements inserted ahead of it are). -/
def scanFrom (g : Grammar) : Nat → LR0Item → ItemSet → Bool → Except Fault (ItemSet × Bool)
  | 0, _, _, _ => .error .outOfFuel
  | fuel + 1, currentItem, closure, changed =>
    match visitItem g currentItem closure changed with
    | .error e => .error e
    | .ok (closure', changed') =>
      match closure'.find? (fun x => itemLt currentItem x) with
      | none => .ok (closure', changed')
      | some next => scanFrom g fuel next closure' changed'

/-- Lines 43-55: one pass of the `while` loop, `changed = false` and the range-`for`. -/
def scanPass (g : Grammar) (closure : ItemSet) : Except Fault (ItemSet × Bool) :=
  match closure with
  | [] => .ok ([], false)
  | first :: _ => scanFrom g (closure.length + (allProductions g).length + 1) first closure false

/-- Lines 42-56: the loop `while (changed)`. -/
def closureLoop (g : Grammar) : Nat → ItemSet → Except Fault ItemSet
  | 0, _ => .error .outOfFuel
  | fuel + 1, closure =>
    match scanPass g closure with
    | .error e => .error e
    | .ok (closure', changed) =>
      if changed then closureLoop g fuel closure' else .ok closure'

/-- The function `closureLR0` (lines 39-58). The source declares the first parameter as one
`LR0Item` and `gotoLR0` passes it a `set<LR0Item>`; here the parameter is the initial content
of the local `closure`, and the call of line 73 passes the one-element set. -/
def closureLR0 (seed : ItemSet) (g : Grammar) : Except Fault ItemSet :=
  closureLoop g ((allProductions g).length + 1) seed

/-- Lines 62-67: the loop of `gotoLR0` over `items`. -/
def advanceItems (symbol : String) : List LR0Item → ItemSet → Except Fault ItemSet
  | [], newItems => .ok newItems
  | item :: rest, newItems =>
    match substr item.production item.dotPosition 1 with
    | .error e => .error e
    | .ok afterDot =>
      if afterDot = symbol then
        advanceItems symbol rest
          (setInsert { production := item.production, dotPosition := item.dotPosition + 1 } newItems)
      else advanceItems symbol rest newItems

/-- The function `gotoLR0` (lines 60-69). -/
def gotoLR0 (items : ItemSet) (symbol : String) (g : Grammar) : Except Fault ItemSet :=
  match advanceItems symbol items [] with
  | .error e => .error e
  | .ok newItems => closureLR0 newItems g

/-- Lines 77-87: the loop over the keys of the grammar, for the state index `i`. -/
def worklistKeys (g : Grammar) (i : Nat) :
    List (String × List String) → List ItemSet → Transitions →
      Except Fault (List ItemSet × Transitions)
  | [], itemSets, transitions => .ok (itemSets, transitions)
  | symbol :: rest, itemSets, transitions =>
    match gotoLR0 (itemSets.getD i []) symbol.1 g with
    | .error e => .error e
    | .ok gotoResult =>
      if gotoResult ≠ [] then
        if findIndex gotoResult itemSets = itemSets.length then
          worklistKeys g i rest (itemSets ++ [gotoResult])
            (mapAssign (i, symbol.1) itemSets.length transitions)
        else
          worklistKeys g i rest itemSets
            (mapAssign (i, symbol.1) (findIndex gotoResult itemSets) transitions)
      else worklistKeys g i rest itemSets transitions

/-- Lines 76-88: the loop `for (i = 0; i < itemSets.size(); ++i)` over the growing vector. -/
def worklist (g : Grammar) :
    Nat → Nat → List ItemSet → Transitions → Except Fault (List ItemSet × Transitions)
  | 0, _, _, _ => .error .outOfFuel
  | fuel + 1, i, itemSets, transitions =>
    if i < itemSets.length then
      match worklistKeys g i g itemSets transitions with
      | .error e => .error e
      | .ok (itemSets', transitions') => worklist g fuel (i + 1) itemSets' transitions'
    else .ok (itemSets, transitions)

/-- Line 95: the test for the literal production `S'`. -/
def isAcceptProduction (production : String) : Bool :=
  charAt production 0 == 'S' && charAt production 1 == Char.ofNat 39 &&
    charAt production 2 == Char.ofNat 0

/-- Line 98: `find(grammar.begin(), grammar.end(), item.production[0])`, the position of the
first entry whose key is the one-character text `production[0]` (the number of entries when
there is none). -/
def findKeyIndex (g : Grammar) (c : Char) : Nat :=
  findIndex (String.singleton c) (g.map Prod.fst)

/-- Lines 93-105: the loop over the items of one state, writing the row of that state. -/
def fillRow (g : Grammar) : List LR0Item → List String → List String
  | [], row => row
  | item :: rest, row =>
    if item.dotPosition = (item.production.length : Int) then
      if isAcceptProduction item.production then
        fillRow g rest (row.set (row.length - 1) "accept")
      else
        if findKeyIndex g (charAt item.production 0) < g.length then
          fillRow g rest
            (row.set (findKeyIndex g (charAt item.production 0))
              ("reduce " ++ toString (findKeyIndex g (charAt item.production 0) + 1)))
        else fillRow g rest row
    else fillRow g rest row

/-- Lines 107-113: the second loop over the keys of the grammar, for the state index `i`. -/
def secondPass (g : Grammar) (itemSets : List ItemSet) (i : Nat) :
    List (String × List String) → Transitions → Except Fault Transitions
  | [], transitions => .ok transitions
  | symbol :: rest, transitions =>
    match gotoLR0 (itemSets.getD i []) symbol.1 g with
    | .error e => .error e
    | .ok gotoResult =>
      if findIndex gotoResult itemSets < itemSets.length ∧ mapFind (i, symbol.1) transitions = none
      then secondPass g itemSets i rest
        (mapAssign (i, symbol.1) (findIndex gotoResult itemSets) transitions)
      else secondPass g itemSets i rest transitions

/-- Lines 92-114: the loop over the state indices, given as the list of indices still to do.
For the index `i` the row is written (lines 93-105) and the second loop over the keys runs
(lines 107-113); neither reads what the other writes. -/
def fillTable (g : Grammar) (itemSets : List ItemSet) :
    List Nat → List (List String) → Transitions → Except Fault (List (List String) × Transitions)
  | [], parsingTable, transitions => .ok (parsingTable, transitions)
  | i :: rest, parsingTable, transitions =>
    match secondPass g itemSets i g transitions with
    | .error e => .error e
    | .ok transitions' =>
      fillTable g itemSets rest
        (parsingTable.set i (fillRow g (itemSets.getD i []) (parsingTable.getD i [])))
        transitions'

/-- Lines 92-105 alone: the rows of the table, over the list of indices still to do. -/
def fillRows (g : Grammar) (itemSets : List ItemSet) : List Nat → List (List String) →
    List (List String)
  | [], parsingTable => parsingTable
  | i :: rest, parsingTable =>
    fillRows g itemSets rest
      (parsingTable.set i (fillRow g (itemSets.getD i []) (parsingTable.getD i [])))

/-- Every item text the states can hold: the first key and the productions. -/
def itemTexts (g : Grammar) : List String :=
  (g.map Prod.fst).take 1 ++ allProductions g

/-- The items the states can hold: the pairs `(text, dot)` with `0 ≤ dot ≤ length` over
`itemTexts`. The worklist loop ends within `2 ^ length` rounds, one per set of such items. -/
def itemUniverse (g : Grammar) : List LR0Item :=
  ((itemTexts g).map (fun p =>
    (List.range (p.length + 1)).map
      (fun (d : Nat) => ({ production := p, dotPosition := (d : Int) } : LR0Item)))).flatten

/-- The function `constructLR0ParsingTable` (lines 71-117). -/
def constructLR0ParsingTable (g : Grammar) :
    Except Fault (List ItemSet × List (List String) × Transitions) :=
  match generateLR0Items g with
  | [] => .error .emptyVector
  | item0 :: _ =>
    match closureLR0 [item0] g with
    | .error e => .error e
    | .ok state0 =>
      match worklist g (2 ^ (itemUniverse g).length + 1) 0 [state0] [] with
      | .error e => .error e
      | .ok (itemSets, transitions) =>
        match fillTable g itemSets (List.range itemSets.length)
            (List.replicate itemSets.length (List.replicate (g.length + 1) "")) transitions with
        | .error e => .error e
        | .ok (parsingTable, transitions') => .ok (itemSets, parsingTable, transitions')

/-- The grammar of end-to-end example 1, `S' -> S`, `S -> a`, in key order. -/
def exampleGrammar : Grammar := [("S", ["a"]), ("S'", ["S"])]

/-- The grammar of `main` (lines 149-153), in key order. -/
def mainGrammar : Grammar :=
  [("E", ["E+T", "T"]), ("F", ["F*", "a", "b"]), ("T", ["TE", "F"])]

/-! ## Predicates of the statements -/

/-- The elements of the list are in strictly ascending order: the list is a `set<LR0Item>`. -/
def Sorted (s : ItemSet) : Prop :=
  s.Pairwise (fun a b => itemLt a b = true)

/-- The dot of the item is inside its production or at its end. -/
def DotInRange (x : LR0Item) : Prop :=
  0 ≤ x.dotPosition ∧ x.dotPosition ≤ (x.production.length : Int)

/-- Every item of the set has its dot in range. -/
def InRange (s : ItemSet) : Prop :=
  ∀ x ∈ s, DotInRange x

/-- The item is `(p, 0)` for a production `p` of some key of the grammar. -/
def IsInitialItem (g : Grammar) (x : LR0Item) : Prop :=
  x.dotPosition = 0 ∧ ∃ key prods, grammarFind key g = some prods ∧ x.production ∈ prods

/-- The symbol after the dot of `x` can be read, and when it is a key of the grammar the
items `(p, 0)` of all its productions are in `c`. -/
def ClosedAt (g : Grammar) (c : ItemSet) (x : LR0Item) : Prop :=
  ∃ sym, substr x.production x.dotPosition 1 = .ok sym ∧
    ∀ prods, grammarFind sym g = some prods →
      ∀ p ∈ prods, ({ production := p, dotPosition := 0 } : LR0Item) ∈ c

/-- The collection `T` of items is closed under the rule of lines 45-53. -/
def ClosedUnder (g : Grammar) (T : LR0Item → Prop) : Prop :=
  ∀ x, T x → ∀ sym prods, substr x.production x.dotPosition 1 = .ok sym →
    grammarFind sym g = some prods →
      ∀ p ∈ prods, T { production := p, dotPosition := 0 }

/-- How the local `closure` of `closureLR0` moves from `c` to `d`: nothing is removed, what
is added is an item `(p, 0)` of a production, order is kept, and `d` stays inside every
closed collection that contains `c`. -/
structure Grows (g : Grammar) (c d : ItemSet) : Prop where
  sub : ∀ x ∈ c, x ∈ d
  fresh : ∀ x ∈ d, x ∈ c ∨ IsInitialItem g x
  sorted : Sorted c → Sorted d
  least : ∀ T : LR0Item → Prop, ClosedUnder g T → (∀ x ∈ c, T x) → ∀ x ∈ d, T x

/-- The number of productions whose item `(p, 0)` is not yet in `c`. -/
def missing (g : Grammar) (c : ItemSet) : Nat :=
  (allProductions g).countP
    (fun p => decide (({ production := p, dotPosition := 0 } : LR0Item) ∉ c))

/-- The items a pass of `closureLR0` over `c` can hold: those of `c` and one per production. -/
def passUniverse (g : Grammar) (c : ItemSet) : List LR0Item :=
  c ++ (allProductions g).map (fun p => ({ production := p, dotPosition := 0 } : LR0Item))

/-- The item was obtained from an item of `items` by moving the dot over `symbol`. -/
def IsAdvanced (items : ItemSet) (symbol : String) (x : LR0Item) : Prop :=
  ∃ it ∈ items, substr it.production it.dotPosition 1 = .ok symbol ∧
    x = { production := it.production, dotPosition := it.dotPosition + 1 }

/-- The transition map has an entry from state `a` to state `b`. -/
def Edge (tr : Transitions) (a b : Nat) : Prop :=
  ∃ X, mapFind (a, X) tr = some b

/-- Every entry of `tr` is an entry of `tr2` with the same value. -/
def MapLe (tr tr2 : Transitions) : Prop :=
  ∀ k v, mapFind k tr = some v → mapFind k tr2 = some v

/-- The invariant of the state vector `itemSets`. -/
structure StatesOk (g : Grammar) (sets : List ItemSet) : Prop where
  nonempty : ∀ s ∈ sets, s ≠ []
  nodup : sets.Nodup
  sorted : ∀ s ∈ sets, Sorted s
  inRange : ∀ s ∈ sets, InRange s
  texts : ∀ s ∈ sets, ∀ x ∈ s, x.production ∈ itemTexts g
  closed : ∀ s ∈ sets, ∀ x ∈ s, ClosedAt g s x

/-- The invariant of the transition map `transitions` over the state vector. -/
structure TransOk (g : Grammar) (sets : List ItemSet) (tr : Transitions) : Prop where
  sound : ∀ i X j, mapFind (i, X) tr = some j →
    i < sets.length ∧ j < sets.length ∧ gotoLR0 (sets.getD i []) X g = .ok (sets.getD j [])
  isKey : ∀ i X j, mapFind (i, X) tr = some j → X ∈ g.map Prod.fst
  reach : ∀ j, j < sets.length → Relation.ReflTransGen (Edge tr) 0 j

/-- The state `i` has been processed for the symbols `keys`: each goto is computed, and a
non-empty one is recorded in the transition map. -/
def Done (g : Grammar) (sets : List ItemSet) (tr : Transitions) (i : Nat)
    (keys : List String) : Prop :=
  ∀ X ∈ keys, ∃ r, gotoLR0 (sets.getD i []) X g = .ok r ∧
    (r ≠ [] → ∃ j, mapFind (i, X) tr = some j ∧ sets.getD j [] = r)

/-- The parts of a successful run of `constructLR0ParsingTable`: the start state is the
closure of `items[0]`, the worklist loop returned the states and the transitions with their
invariants and every state processed, and the table holds the rows of lines 92-105. -/
structure Run (g : Grammar) (sets : List ItemSet) (table : List (List String))
    (tr : Transitions) : Prop where
  start : ∃ item0 rest state0 tail, generateLR0Items g = item0 :: rest ∧
    closureLR0 [item0] g = .ok state0 ∧
    worklist g (2 ^ (itemUniverse g).length + 1) 0 [state0] [] = .ok (sets, tr) ∧
    sets = [state0] ++ tail
  statesOk : StatesOk g sets
  transOk : TransOk g sets tr
  done : ∀ i, i < sets.length → Done g sets tr i (g.map Prod.fst)
  rows : table = fillRows g sets (List.range sets.length)
    (List.replicate sets.length (List.replicate (g.length + 1) ""))

/-- The states `constructLR0ParsingTable` returns for `exampleGrammar`. -/
def exampleStates : List ItemSet :=
  [[{ production := "S", dotPosition := 0 }, { production := "a", dotPosition := 0 }],
   [{ production := "S", dotPosition := 1 }]]

/-- The table `constructLR0ParsingTable` returns for `exampleGrammar`. -/
def exampleTable : List (List String) :=
  [["", "", ""], ["reduce 1", "", ""]]

/-- The transitions `constructLR0ParsingTable` returns for `exampleGrammar`. -/
def exampleTransitions : Transitions :=
  [((0, "S"), 1)]

/-- The expression grammar of end-to-end example 2, augmented with `E' -> E`, in key order. -/
def expressionGrammar : Grammar :=
  [("E", ["E+T", "T"]), ("E'", ["E"]), ("F", ["a", "b"]), ("T", ["T*F", "F"])]

/-- The item is complete and passes the test of line 95: line 96 writes `accept`. -/
def WritesAccept (item : LR0Item) : Prop :=
  item.dotPosition = (item.production.length : Int) ∧ isAcceptProduction item.production = true

/-- The item is complete, fails the test of line 95, and line 98 finds the column `c`:
line 101 writes a reduce action into column `c`. -/
def WritesReduce (g : Grammar) (item : LR0Item) (c : Nat) : Prop :=
  item.dotPosition = (item.production.length : Int) ∧
    isAcceptProduction item.production = false ∧
    findKeyIndex g (charAt item.production 0) = c ∧ c < g.length

/-- Lines 72-88 alone: the start state and the worklist loop, without the table fill of lines
90-114 and its second pass over the transitions. -/
def buildAutomaton (g : Grammar) : Except Fault (List ItemSet × Transitions) :=
  match generateLR0Items g with
  | [] => .error .emptyVector
  | item0 :: _ =>
    match closureLR0 [item0] g with
    | .error e => .error e
    | .ok state0 => worklist g (2 ^ (itemUniverse g).length + 1) 0 [state0] []

/-- A grammar whose map has the empty text as a key. -/
def emptyKeyGrammar : Grammar := [("", ["a"])]

/-- A grammar with the productions `A -> AA` and `A -> A`. -/
def conflictGrammar : Grammar := [("A", ["AA", "A"])]

/-- The entries are in strictly ascending key order: the list is a `std::map`. -/
def KeysSorted (g : Grammar) : Prop :=
  g.Pairwise (fun a b => textLt a.1.data b.1.data = true)

/-- The call `map.insert(e)`: the entry is put at its place in key order, and dropped when
its key is already in the map. -/
def grammarInsert (e : String × List String) : Grammar → Grammar
  | [] => [e]
  | f :: rest =>
    if textLt e.1.data f.1.data then e :: f :: rest
    else if e.1 = f.1 then f :: rest
    else f :: grammarInsert e rest

/-- The map built from a braced list of entries, as in line 149: each entry is inserted in
turn. -/
def grammarOf (entries : List (String × List String)) : Grammar :=
  entries.foldl (fun m e => grammarInsert e m) []

theorem textLt_irrefl (a : List Char) : textLt a a = false := by
  induction a with
  | nil => rfl
  | cons x xs ih => simp [textLt, ih]

theorem textLt_trans {a b c : List Char} (h1 : textLt a b = true) (h2 : textLt b c = true) :
    textLt a c = true := by
  induction a generalizing b c with
  | nil => cases b <;> cases c <;> simp_all [textLt]
  | cons x xs ih =>
    cases b with
    | nil => simp [textLt] at h1
    | cons y ys =>
      cases c with
      | nil => simp [textLt] at h2
      | cons z zs =>
        simp only [textLt, Bool.or_eq_true, Bool.and_eq_true, decide_eq_true_eq] at h1 h2 ⊢
        rcases h1 with h1 | ⟨h1, h1t⟩ <;> rcases h2 with h2 | ⟨h2, h2t⟩
        · left; omega
        · left; subst h2; exact h1
        · left; subst h1; exact h2
        · right; exact ⟨h1.trans h2, ih h1t h2t⟩

theorem char_eq_of_toNat_eq {a b : Char} (h : a.toNat = b.toNat) : a = b := by
  rw [← Char.ofNat_toNat a, ← Char.ofNat_toNat b, h]

theorem textLt_total {a b : List Char} (h1 : textLt a b = false) (h2 : textLt b a = false) :
    a = b := by
  induction a generalizing b with
  | nil => cases b <;> simp_all [textLt]
  | cons x xs ih =>
    cases b with
    | nil => simp [textLt] at h2
    | cons y ys =>
      simp only [textLt, Bool.or_eq_false_iff, Bool.and_eq_false_imp, decide_eq_false_iff_not,
        decide_eq_true_eq] at h1 h2
      have hxy : x = y := char_eq_of_toNat_eq (by omega)
      subst hxy
      rw [ih (h1.2 rfl) (h2.2 rfl)]

theorem itemLt_irrefl (a : LR0Item) : itemLt a a = false := by
  simp [itemLt, textLt_irrefl]

theorem itemLt_trans {a b c : LR0Item} (h1 : itemLt a b = true) (h2 : itemLt b c = true) :
    itemLt a c = true := by
  simp only [itemLt, Bool.or_eq_true, Bool.and_eq_true, decide_eq_true_eq] at h1 h2 ⊢
  rcases h1 with h1 | ⟨h1, h1d⟩ <;> rcases h2 with h2 | ⟨h2, h2d⟩
  · left; exact textLt_trans h1 h2
  · left; rw [← h2]; exact h1
  · left; rw [h1]; exact h2
  · right; exact ⟨h1.trans h2, by omega⟩

theorem itemLt_total {a b : LR0Item} (h1 : itemLt a b = false) (h2 : itemLt b a = false) :
    a = b := by
  simp only [itemLt, Bool.or_eq_false_iff, Bool.and_eq_false_imp, decide_eq_false_iff_not,
    decide_eq_true_eq] at h1 h2
  have hp : a.production = b.production := String.ext (textLt_total h1.1 h2.1)
  have hd : a.dotPosition = b.dotPosition := by
    have := h1.2 hp
    have := h2.2 hp.symm
    omega
  cases a; cases b; simp_all

theorem itemLt_asymm {a b : LR0Item} (h : itemLt a b = true) : itemLt b a = false := by
  by_contra hc
  have := itemLt_trans h (by simpa using hc)
  rw [itemLt_irrefl] at this
  exact Bool.noConfusion this

/-! ## Ordered insertion -/

theorem mem_setInsert {x y : LR0Item} {s : ItemSet} : y ∈ setInsert x s ↔ y = x ∨ y ∈ s := by
  induction s with
  | nil => simp [setInsert]
  | cons z zs ih =>
    unfold setInsert
    split
    · simp
    · split
      · rename_i h; subst h; simp
      · simp [ih]; tauto

theorem sorted_setInsert {x : LR0Item} {s : ItemSet} (hs : Sorted s) : Sorted (setInsert x s) := by
  induction s with
  | nil => simp [setInsert, Sorted]
  | cons z zs ih =>
    unfold Sorted at hs ih ⊢
    rw [List.pairwise_cons] at hs
    unfold setInsert
    split
    · rename_i h
      refine List.pairwise_cons.2 ⟨?_, List.pairwise_cons.2 hs⟩
      intro a ha
      rcases List.mem_cons.1 ha with rfl | ha
      · exact h
      · exact itemLt_trans h (hs.1 a ha)
    · split
      · exact List.pairwise_cons.2 hs
      · rename_i h1 h2
        refine List.pairwise_cons.2 ⟨?_, ih hs.2⟩
        intro a ha
        rcases mem_setInsert.1 ha with rfl | ha
        · by_contra hc
          exact h2 (itemLt_total (by simpa using h1) (by simpa using hc))
        · exact hs.1 a ha

theorem setInsert_of_mem {x : LR0Item} {s : ItemSet} (hs : Sorted s) (hx : x ∈ s) :
    setInsert x s = s := by
  induction s with
  | nil => simp at hx
  | cons z zs ih =>
    unfold Sorted at hs ih
    rw [List.pairwise_cons] at hs
    unfold setInsert
    rcases List.mem_cons.1 hx with rfl | hx
    · simp [itemLt_irrefl]
    · have hlt := hs.1 x hx
      have h1 : itemLt x z = false := itemLt_asymm hlt
      have h2 : x ≠ z := by
        intro e
        rw [e, itemLt_irrefl] at hlt
        exact Bool.noConfusion hlt
      simp [h1, h2, ih hs.2 hx]

theorem length_setInsert {x : LR0Item} {s : ItemSet} (hx : x ∉ s) :
    (setInsert x s).length = s.length + 1 := by
  induction s with
  | nil => simp [setInsert]
  | cons z zs ih =>
    unfold setInsert
    have hz : x ≠ z := fun h => hx (by simp [h])
    have hzs : x ∉ zs := fun h => hx (by simp [h])
    split
    · simp
    · simp [hz, ih hzs]

theorem setInsert_ne_nil (x : LR0Item) (s : ItemSet) : setInsert x s ≠ [] := by
  cases s with
  | nil => simp [setInsert]
  | cons z zs =>
    unfold setInsert
    split
    · simp
    · split <;> simp

/-- Two strictly ascending lists with the same elements are the same list. -/
theorem sorted_ext {s t : ItemSet} (hs : Sorted s) (ht : Sorted t)
    (h : ∀ x, x ∈ s ↔ x ∈ t) : s = t := by
  induction s generalizing t with
  | nil =>
    cases t with
    | nil => rfl
    | cons y ys => exact absurd ((h y).2 (by simp)) (by simp)
  | cons x xs ih =>
    cases t with
    | nil => exact absurd ((h x).1 (by simp)) (by simp)
    | cons y ys =>
      unfold Sorted at hs ht ih
      rw [List.pairwise_cons] at hs ht
      have hxy : x = y := by
        have hx : x ∈ y :: ys := (h x).1 (by simp)
        have hy : y ∈ x :: xs := (h y).2 (by simp)
        rcases List.mem_cons.1 hx with e | hx
        · exact e
        · rcases List.mem_cons.1 hy with e | hy
          · exact e.symm
          · have h1 := ht.1 x hx
            have h2 := hs.1 y hy
            rw [itemLt_asymm h1] at h2
            exact Bool.noConfusion h2
      subst hxy
      have hirr : ∀ l : ItemSet, (∀ a ∈ l, itemLt x a = true) → x ∉ l := by
        intro l hl hx
        have := hl x hx
        rw [itemLt_irrefl] at this
        exact Bool.noConfusion this
      congr 1
      apply ih hs.2 ht.2
      intro a
      constructor
      · intro ha
        have : a ∈ x :: ys := (h a).1 (by simp [ha])
        rcases List.mem_cons.1 this with rfl | h2
        · exact absurd ha (hirr xs hs.1)
        · exact h2
      · intro ha
        have : a ∈ x :: xs := (h a).2 (by simp [ha])
        rcases List.mem_cons.1 this with rfl | h2
        · exact absurd ha (hirr ys ht.1)
        · exact h2

/-! ## The closure: one visited item -/

theorem grows_refl (g : Grammar) (c : ItemSet) : Grows g c c :=
  ⟨fun _ h => h, fun _ h => Or.inl h, fun h => h, fun _ _ h => h⟩

theorem grows_trans {g : Grammar} {c d e : ItemSet} (h1 : Grows g c d) (h2 : Grows g d e) :
    Grows g c e := by
  refine ⟨fun x hx => h2.sub x (h1.sub x hx), ?_, fun hs => h2.sorted (h1.sorted hs), ?_⟩
  · intro x hx
    rcases h2.fresh x hx with h | h
    · exact h1.fresh x h
    · exact Or.inr h
  · intro T hT hc
    exact h2.least T hT (h1.least T hT hc)

theorem mem_allProductions_of_grammarFind {g : Grammar} {sym : String} {prods : List String}
    (h : grammarFind sym g = some prods) {p : String} (hp : p ∈ prods) :
    p ∈ allProductions g := by
  unfold grammarFind at h
  rcases Option.map_eq_some'.1 h with ⟨e, he, rfl⟩
  unfold allProductions
  rw [List.mem_flatten]
  exact ⟨e.2, List.mem_map.2 ⟨e, List.mem_of_find?_eq_some he, rfl⟩, hp⟩

theorem mem_addProductions {ps : List String} {c : ItemSet} {ch : Bool} {x : LR0Item} :
    x ∈ (addProductions ps c ch).1 ↔
      x ∈ c ∨ ∃ p ∈ ps, x = { production := p, dotPosition := 0 } := by
  induction ps generalizing c ch with
  | nil => simp [addProductions]
  | cons p ps ih =>
    unfold addProductions
    split
    · rename_i hmem
      rw [ih]
      constructor
      · rintro (h | ⟨q, hq, rfl⟩)
        · exact Or.inl h
        · exact Or.inr ⟨q, List.mem_cons_of_mem _ hq, rfl⟩
      · rintro (h | ⟨q, hq, rfl⟩)
        · exact Or.inl h
        · rcases List.mem_cons.1 hq with rfl | hq
          · exact Or.inl hmem
          · exact Or.inr ⟨q, hq, rfl⟩
    · rw [ih, mem_setInsert]
      constructor
      · rintro ((rfl | h) | ⟨q, hq, rfl⟩)
        · exact Or.inr ⟨p, List.mem_cons_self _ _, rfl⟩
        · exact Or.inl h
        · exact Or.inr ⟨q, List.mem_cons_of_mem _ hq, rfl⟩
      · rintro (h | ⟨q, hq, rfl⟩)
        · exact Or.inl (Or.inr h)
        · rcases List.mem_cons.1 hq with rfl | hq
          · exact Or.inl (Or.inl rfl)
          · exact Or.inr ⟨q, hq, rfl⟩

theorem sorted_addProductions {ps : List String} {c : ItemSet} {ch : Bool} (hs : Sorted c) :
    Sorted (addProductions ps c ch).1 := by
  induction ps generalizing c ch with
  | nil => simpa [addProductions] using hs
  | cons p ps ih =>
    unfold addProductions
    split
    · exact ih hs
    · exact ih (sorted_setInsert hs)

/-- When the flag comes out `false` nothing was inserted and nothing was missing. -/
theorem addProductions_false {ps : List String} {c : ItemSet} {ch : Bool}
    (h : (addProductions ps c ch).2 = false) :
    ch = false ∧ (addProductions ps c ch).1 = c ∧
      ∀ p ∈ ps, ({ production := p, dotPosition := 0 } : LR0Item) ∈ c := by
  induction ps generalizing c ch with
  | nil => simpa [addProductions] using h
  | cons p ps ih =>
    unfold addProductions at h ⊢
    split at h
    · rename_i hmem
      rw [if_pos hmem]
      obtain ⟨h1, h2, h3⟩ := ih h
      refine ⟨h1, h2, ?_⟩
      intro q hq
      rcases List.mem_cons.1 hq with rfl | hq
      · exact hmem
      · exact h3 q hq
    · have := (ih h).1
      exact Bool.noConfusion this

/-- When the flag comes out `true` it was `true` before or an item was missing. -/
theorem addProductions_true {ps : List String} {c : ItemSet} {ch : Bool}
    (h : (addProductions ps c ch).2 = true) :
    ch = true ∨ ∃ p ∈ ps, ({ production := p, dotPosition := 0 } : LR0Item) ∉ c := by
  induction ps generalizing c ch with
  | nil => exact Or.inl (by simpa [addProductions] using h)
  | cons p ps ih =>
    unfold addProductions at h
    split at h
    · rcases ih h with h1 | ⟨q, hq, hn⟩
      · exact Or.inl h1
      · exact Or.inr ⟨q, List.mem_cons_of_mem _ hq, hn⟩
    · rename_i hmem
      exact Or.inr ⟨p, List.mem_cons_self _ _, hmem⟩

theorem countP_lt_countP {α : Type} (l : List α) (p q : α → Bool)
    (h : ∀ x ∈ l, p x = true → q x = true) (a : α) (ha : a ∈ l) (hq : q a = true)
    (hp : p a = false) : l.countP p < l.countP q := by
  induction l with
  | nil => simp at ha
  | cons b l ih =>
    rw [List.countP_cons, List.countP_cons]
    have hmono : l.countP p ≤ l.countP q :=
      List.countP_mono_left (fun x hx => h x (List.mem_cons_of_mem _ hx))
    rcases List.mem_cons.1 ha with rfl | ha
    · simp [hq, hp]; omega
    · have := ih (fun x hx => h x (List.mem_cons_of_mem _ hx)) ha
      by_cases hb : p b = true
      · simp [hb, h b (List.mem_cons_self _ _) hb]; omega
      · simp [hb]; omega

theorem missing_mono {g : Grammar} {c d : ItemSet} (h : ∀ x ∈ c, x ∈ d) :
    missing g d ≤ missing g c := by
  unfold missing
  apply List.countP_mono_left
  intro p _ hp
  simp only [decide_eq_true_eq] at hp ⊢
  exact fun hc => hp (h _ hc)

theorem missing_lt {g : Grammar} {c d : ItemSet} (h : ∀ x ∈ c, x ∈ d) {p : String}
    (hp : p ∈ allProductions g) (hd : ({ production := p, dotPosition := 0 } : LR0Item) ∈ d)
    (hc : ({ production := p, dotPosition := 0 } : LR0Item) ∉ c) :
    missing g d < missing g c := by
  unfold missing
  apply countP_lt_countP _ _ _ _ p hp
  · simpa using hc
  · simpa using hd
  · intro q _ hq
    simp only [decide_eq_true_eq] at hq ⊢
    exact fun hc => hq (h _ hc)

theorem dotInRange_of_initial {g : Grammar} {x : LR0Item} (h : IsInitialItem g x) :
    DotInRange x := by
  unfold DotInRange
  rw [h.1]
  exact ⟨le_refl 0, Int.ofNat_nonneg _⟩

theorem substr_ok_iff {s : String} {pos : Int} {n : Nat} :
    (∃ r, substr s pos n = .ok r) ↔ 0 ≤ pos ∧ pos ≤ (s.length : Int) := by
  unfold substr
  split <;> simp_all

theorem substr_error {s : String} {pos : Int} {n : Nat} {e : Fault}
    (h : substr s pos n = .error e) : e = .outOfRange ∧ ¬ (0 ≤ pos ∧ pos ≤ (s.length : Int)) := by
  unfold substr at h
  split at h
  · cases h
  · rename_i hn
    cases h
    exact ⟨rfl, hn⟩

/-- What one run of the loop body does, when it does not throw. -/
theorem visitItem_ok {g : Grammar} {cur : LR0Item} {c d : ItemSet} {ch ch2 : Bool}
    (h : visitItem g cur c ch = .ok (d, ch2)) (hcur : cur ∈ c) :
    Grows g c d ∧ DotInRange cur ∧
      (ch2 = false → ch = false ∧ d = c ∧ ClosedAt g c cur) ∧
      (ch2 = true → ch = true ∨ missing g d < missing g c) := by
  unfold visitItem at h
  cases hs : substr cur.production cur.dotPosition 1 with
  | error e => rw [hs] at h; cases h
  | ok sym =>
    simp only [hs] at h
    have hr : DotInRange cur := substr_ok_iff.1 ⟨sym, hs⟩
    cases hf : grammarFind sym g with
    | none =>
      simp only [hf] at h
      simp only [Except.ok.injEq, Prod.mk.injEq] at h
      obtain ⟨rfl, rfl⟩ := h
      refine ⟨grows_refl g c, hr, ?_, fun h => Or.inl h⟩
      intro hch
      exact ⟨hch, rfl, sym, hs, fun prods hp => by rw [hf] at hp; cases hp⟩
    | some prods =>
      simp only [hf] at h
      simp only [Except.ok.injEq] at h
      have h1 : (addProductions prods c ch).1 = d := by rw [h]
      have h2 : (addProductions prods c ch).2 = ch2 := by rw [h]
      have hsub : ∀ x ∈ c, x ∈ d := fun x hx => by
        rw [← h1]; exact mem_addProductions.2 (Or.inl hx)
      refine ⟨⟨hsub, ?_, ?_, ?_⟩, hr, ?_, ?_⟩
      · intro x hx
        rw [← h1] at hx
        rcases mem_addProductions.1 hx with hx | ⟨p, hp, rfl⟩
        · exact Or.inl hx
        · exact Or.inr ⟨rfl, sym, prods, hf, hp⟩
      · intro hsc
        rw [← h1]
        exact sorted_addProductions hsc
      · intro T hT hc x hx
        rw [← h1] at hx
        rcases mem_addProductions.1 hx with hx | ⟨p, hp, rfl⟩
        · exact hc x hx
        · exact hT cur (hc cur hcur) sym prods hs hf p hp
      · intro hch
        rw [← h2] at hch
        obtain ⟨ha, hb, hc⟩ := addProductions_false hch
        refine ⟨ha, by rw [← h1, hb], sym, hs, ?_⟩
        intro prods2 hp2
        rw [hf] at hp2
        cases hp2
        exact hc
      · intro hch
        rw [← h2] at hch
        rcases addProductions_true hch with ha | ⟨p, hp, hn⟩
        · exact Or.inl ha
        · right
          refine missing_lt hsub (mem_allProductions_of_grammarFind hf hp) ?_ hn
          rw [← h1]
          exact mem_addProductions.2 (Or.inr ⟨p, hp, rfl⟩)

/-- The loop body throws only `std::out_of_range`, and only at a dot out of range. -/
theorem visitItem_error {g : Grammar} {cur : LR0Item} {c : ItemSet} {ch : Bool} {e : Fault}
    (h : visitItem g cur c ch = .error e) : e = .outOfRange ∧ ¬ DotInRange cur := by
  unfold visitItem at h
  cases hs : substr cur.production cur.dotPosition 1 with
  | error e2 =>
    simp only [hs] at h
    simp only [Except.error.injEq] at h
    subst h
    exact substr_error hs
  | ok sym =>
    simp only [hs] at h
    cases hf : grammarFind sym g with
    | none => simp only [hf] at h; cases h
    | some prods => simp only [hf] at h; cases h

/-! ## The closure: one pass and the loop -/

/-- What a pass does from `cur` on, when it does not throw. -/
theorem scanFrom_ok {g : Grammar} (fuel : Nat) : ∀ {cur : LR0Item} {c d : ItemSet} {ch ch2 : Bool},
    scanFrom g fuel cur c ch = .ok (d, ch2) → cur ∈ c →
      Grows g c d ∧ (ch2 = false → ch = false ∧ d = c) ∧
        (ch2 = true → ch = true ∨ missing g d < missing g c) := by
  induction fuel with
  | zero => intro cur c d ch ch2 h; simp [scanFrom] at h
  | succ n ih =>
    intro cur c d ch ch2 h hcur
    simp only [scanFrom] at h
    cases hv : visitItem g cur c ch with
    | error e => simp only [hv] at h; cases h
    | ok r =>
      obtain ⟨c1, ch1⟩ := r
      simp only [hv] at h
      obtain ⟨hg, _, hf, ht⟩ := visitItem_ok hv hcur
      cases hn : c1.find? (fun x => itemLt cur x) with
      | none =>
        simp only [hn, Except.ok.injEq, Prod.mk.injEq] at h
        obtain ⟨rfl, rfl⟩ := h
        exact ⟨hg, fun h => ⟨(hf h).1, (hf h).2.1⟩, ht⟩
      | some nxt =>
        simp only [hn] at h
        obtain ⟨hg2, hf2, ht2⟩ := ih h (List.mem_of_find?_eq_some hn)
        refine ⟨grows_trans hg hg2, ?_, ?_⟩
        · intro h2
          obtain ⟨h3, h4⟩ := hf2 h2
          obtain ⟨h5, h6, _⟩ := hf h3
          exact ⟨h5, by rw [h4, h6]⟩
        · intro h2
          have m1 : missing g d ≤ missing g c1 := missing_mono hg2.sub
          have m2 : missing g c1 ≤ missing g c := missing_mono hg.sub
          rcases ht2 h2 with h3 | h3
          · rcases ht h3 with h4 | h4
            · exact Or.inl h4
            · exact Or.inr (by omega)
          · exact Or.inr (by omega)

/-- A pass that reports no change has visited every element from `cur` on. -/
theorem scanFrom_unchanged {g : Grammar} (fuel : Nat) : ∀ {cur : LR0Item} {c d : ItemSet},
    Sorted c → cur ∈ c → scanFrom g fuel cur c false = .ok (d, false) →
      ∀ x ∈ c, itemLt x cur = false → ClosedAt g c x := by
  induction fuel with
  | zero => intro cur c d _ _ h; simp [scanFrom] at h
  | succ n ih =>
    intro cur c d hs hcur h x hx hxc
    simp only [scanFrom] at h
    cases hv : visitItem g cur c false with
    | error e => simp only [hv] at h; cases h
    | ok r =>
      obtain ⟨c1, ch1⟩ := r
      simp only [hv] at h
      obtain ⟨_, _, hf, _⟩ := visitItem_ok hv hcur
      cases hn : c1.find? (fun x => itemLt cur x) with
      | none =>
        simp only [hn, Except.ok.injEq, Prod.mk.injEq] at h
        obtain ⟨rfl, rfl⟩ := h
        obtain ⟨_, h6, h7⟩ := hf rfl
        subst h6
        have hno := List.find?_eq_none.1 hn x hx
        have : x = cur := itemLt_total hxc (by simpa using hno)
        rw [this]
        exact h7
      | some nxt =>
        simp only [hn] at h
        have hnxt := List.mem_of_find?_eq_some hn
        obtain ⟨_, hf2, _⟩ := scanFrom_ok n h hnxt
        obtain ⟨h3, _⟩ := hf2 rfl
        obtain ⟨_, h6, h7⟩ := hf h3
        subst h6 h3
        by_cases hxcur : x = cur
        · rw [hxcur]; exact h7
        · apply ih hs hnxt h x hx
          have hlt : itemLt cur x = true := by
            by_contra hc
            exact hxcur (itemLt_total hxc (by simpa using hc))
          obtain ⟨_, as, bs, hsplit, has⟩ := List.find?_eq_some.1 hn
          rw [hsplit] at hx
          rcases List.mem_append.1 hx with hxa | hxb
          · have := has x hxa
            simp [hlt] at this
          · rcases List.mem_cons.1 hxb with rfl | hxb
            · exact itemLt_irrefl _
            · unfold Sorted at hs
              rw [hsplit, List.pairwise_append] at hs
              exact itemLt_asymm ((List.pairwise_cons.1 hs.2.1).1 x hxb)

theorem inRange_of_grows {g : Grammar} {c d : ItemSet} (h : Grows g c d) (hc : InRange c) :
    InRange d := by
  intro x hx
  rcases h.fresh x hx with h1 | h1
  · exact hc x h1
  · exact dotInRange_of_initial h1

theorem mem_universe_of_grows {g : Grammar} {c d : ItemSet} {V : List LR0Item}
    (h : Grows g c d)
    (hV : ∀ p ∈ allProductions g, ({ production := p, dotPosition := 0 } : LR0Item) ∈ V)
    (hc : ∀ x ∈ c, x ∈ V) : ∀ x ∈ d, x ∈ V := by
  intro x hx
  rcases h.fresh x hx with h1 | ⟨h0, key, prods, hf, hp⟩
  · exact hc x h1
  · have := hV _ (mem_allProductions_of_grammarFind hf hp)
    rw [← h0] at this
    exact this

/-- A pass ends: with fuel above the number of elements still ahead it returns, or it throws
`std::out_of_range` at a dot out of range. -/
theorem scanFrom_total {g : Grammar} (V : List LR0Item)
    (hV : ∀ p ∈ allProductions g, ({ production := p, dotPosition := 0 } : LR0Item) ∈ V)
    (fuel : Nat) : ∀ {cur : LR0Item} {c : ItemSet} {ch : Bool},
    (∀ x ∈ c, x ∈ V) → cur ∈ c → V.countP (fun x => itemLt cur x) < fuel →
      (∃ r, scanFrom g fuel cur c ch = .ok r) ∨
        (scanFrom g fuel cur c ch = .error .outOfRange ∧ ¬ InRange c) := by
  induction fuel with
  | zero => intro cur c ch _ _ h; omega
  | succ n ih =>
    intro cur c ch hc hcur hfuel
    simp only [scanFrom]
    cases hv : visitItem g cur c ch with
    | error e =>
      obtain ⟨rfl, hr⟩ := visitItem_error hv
      exact Or.inr ⟨rfl, fun h => hr (h cur hcur)⟩
    | ok r =>
      obtain ⟨c1, ch1⟩ := r
      obtain ⟨hg, _, _, _⟩ := visitItem_ok hv hcur
      cases hn : c1.find? (fun x => itemLt cur x) with
      | none =>
        simp only [hn]
        exact Or.inl ⟨_, rfl⟩
      | some nxt =>
        simp only [hn]
        have hnxt := List.mem_of_find?_eq_some hn
        have hc1 := mem_universe_of_grows hg hV hc
        have hlt : itemLt cur nxt = true := List.find?_some hn
        have hm : V.countP (fun x => itemLt nxt x) < V.countP (fun x => itemLt cur x) :=
          countP_lt_countP V _ _ (fun x _ hx => itemLt_trans hlt hx) nxt (hc1 nxt hnxt) hlt
            (itemLt_irrefl nxt)
        rcases @ih nxt c1 ch1 hc1 hnxt (by omega) with h | ⟨h1, h2⟩
        · exact Or.inl h
        · exact Or.inr ⟨h1, fun h => h2 (inRange_of_grows hg h)⟩

theorem scanPass_ok {g : Grammar} {c d : ItemSet} {ch2 : Bool}
    (h : scanPass g c = .ok (d, ch2)) :
    Grows g c d ∧ (ch2 = false → d = c) ∧ (ch2 = true → missing g d < missing g c) := by
  unfold scanPass at h
  cases c with
  | nil =>
    simp only [Except.ok.injEq, Prod.mk.injEq] at h
    obtain ⟨rfl, rfl⟩ := h
    exact ⟨grows_refl g [], fun _ => rfl, fun h => Bool.noConfusion h⟩
  | cons first rest =>
    simp only at h
    obtain ⟨hg, hf, ht⟩ := scanFrom_ok _ h (List.mem_cons_self _ _)
    refine ⟨hg, fun h => (hf h).2, fun h => ?_⟩
    rcases ht h with h1 | h1
    · exact Bool.noConfusion h1
    · exact h1

theorem scanPass_unchanged {g : Grammar} {c d : ItemSet} (hs : Sorted c)
    (h : scanPass g c = .ok (d, false)) : ∀ x ∈ c, ClosedAt g c x := by
  unfold scanPass at h
  cases c with
  | nil => intro x hx; simp at hx
  | cons first rest =>
    simp only at h
    intro x hx
    apply scanFrom_unchanged _ hs (List.mem_cons_self _ _) h x hx
    rcases List.mem_cons.1 hx with rfl | hx
    · exact itemLt_irrefl _
    · unfold Sorted at hs
      exact itemLt_asymm ((List.pairwise_cons.1 hs).1 x hx)

theorem scanPass_total (g : Grammar) (c : ItemSet) :
    (∃ r, scanPass g c = .ok r) ∨ (scanPass g c = .error .outOfRange ∧ ¬ InRange c) := by
  unfold scanPass
  cases c with
  | nil => exact Or.inl ⟨_, rfl⟩
  | cons first rest =>
    simp only
    apply scanFrom_total (passUniverse g (first :: rest))
    · intro p hp
      unfold passUniverse
      exact List.mem_append_right _ (List.mem_map.2 ⟨p, hp, rfl⟩)
    · intro x hx
      unfold passUniverse
      exact List.mem_append_left _ hx
    · exact List.mem_cons_self _ _
    · have := List.countP_le_length (fun x => itemLt first x) (l := passUniverse g (first :: rest))
      unfold passUniverse at this ⊢
      simp only [List.length_append, List.length_map, List.length_cons] at this ⊢
      omega

theorem closureLoop_ok {g : Grammar} (fuel : Nat) : ∀ {c d : ItemSet},
    closureLoop g fuel c = .ok d → Grows g c d ∧ scanPass g d = .ok (d, false) := by
  induction fuel with
  | zero => intro c d h; simp [closureLoop] at h
  | succ n ih =>
    intro c d h
    simp only [closureLoop] at h
    cases hp : scanPass g c with
    | error e => simp only [hp] at h; cases h
    | ok r =>
      obtain ⟨c1, ch1⟩ := r
      simp only [hp] at h
      obtain ⟨hg, hf, _⟩ := scanPass_ok hp
      cases ch1 with
      | true =>
        simp only [if_true] at h
        obtain ⟨hg2, h2⟩ := ih h
        exact ⟨grows_trans hg hg2, h2⟩
      | false =>
        simp only [Bool.false_eq_true, if_false, Except.ok.injEq] at h
        subst h
        have := hf rfl
        subst this
        exact ⟨hg, hp⟩

theorem closureLoop_total {g : Grammar} (fuel : Nat) : ∀ {c : ItemSet}, missing g c < fuel →
    (∃ d, closureLoop g fuel c = .ok d) ∨
      (closureLoop g fuel c = .error .outOfRange ∧ ¬ InRange c) := by
  induction fuel with
  | zero => intro c h; omega
  | succ n ih =>
    intro c hfuel
    simp only [closureLoop]
    rcases scanPass_total g c with ⟨r, hr⟩ | ⟨h1, h2⟩
    · obtain ⟨c1, ch1⟩ := r
      obtain ⟨hg, _, ht⟩ := scanPass_ok hr
      rw [hr]
      cases ch1 with
      | true =>
        simp only [if_true]
        have := ht rfl
        rcases ih (c := c1) (by omega) with h | ⟨h3, h4⟩
        · exact Or.inl h
        · exact Or.inr ⟨h3, fun h => h4 (inRange_of_grows hg h)⟩
      | false => exact Or.inl ⟨c1, by simp⟩
    · rw [h1]
      exact Or.inr ⟨rfl, h2⟩

/-- What `closureLR0` returns: the seed grown to a set on which a pass changes nothing. -/
theorem closureLR0_ok {g : Grammar} {seed d : ItemSet} (h : closureLR0 seed g = .ok d) :
    Grows g seed d ∧ scanPass g d = .ok (d, false) :=
  closureLoop_ok _ h

/-- The loops of `closureLR0` end: it returns, or throws at a dot out of range. -/
theorem closureLR0_total (g : Grammar) (seed : ItemSet) :
    (∃ d, closureLR0 seed g = .ok d) ∨
      (closureLR0 seed g = .error .outOfRange ∧ ¬ InRange seed) := by
  apply closureLoop_total
  have := List.countP_le_length
    (fun p => decide (({ production := p, dotPosition := 0 } : LR0Item) ∉ seed))
    (l := allProductions g)
  unfold missing
  omega

theorem closureLR0_fixed {g : Grammar} {d : ItemSet} (h : scanPass g d = .ok (d, false)) :
    closureLR0 d g = .ok d := by
  simp [closureLR0, closureLoop, h]

theorem closureLR0_closed {g : Grammar} {seed d : ItemSet} (hs : Sorted seed)
    (h : closureLR0 seed g = .ok d) : ∀ x ∈ d, ClosedAt g d x := by
  obtain ⟨hg, hp⟩ := closureLR0_ok h
  exact scanPass_unchanged (hg.sorted hs) hp

theorem closureLR0_nil (g : Grammar) : closureLR0 [] g = .ok [] := by
  simp [closureLR0, closureLoop, scanPass]

/-! ## Goto -/

theorem substr_length {s sym : String} {pos : Int} (h : substr s pos 1 = .ok sym) :
    (sym.length = 1 ↔ pos < (s.length : Int)) ∧ sym.length ≤ 1 := by
  unfold substr at h
  split at h
  · rename_i hr
    simp only [Except.ok.injEq] at h
    subst h
    have h1 : (String.mk (List.take 1 (List.drop pos.toNat s.data))).length
        = min 1 (s.data.length - pos.toNat) := by
      show (List.take 1 (List.drop pos.toNat s.data)).length = _
      rw [List.length_take, List.length_drop]
    have h2 : s.length = s.data.length := rfl
    rw [h1]
    constructor
    · constructor
      · intro h; omega
      · intro h; omega
    · omega
  · cases h

/-- What the loop of `gotoLR0` collects, when it does not throw. -/
theorem advanceItems_ok {symbol : String} {items : List LR0Item} : ∀ {acc r : ItemSet},
    advanceItems symbol items acc = .ok r →
      (∀ x, x ∈ r ↔ x ∈ acc ∨ ∃ it ∈ items, substr it.production it.dotPosition 1 = .ok symbol ∧
        x = { production := it.production, dotPosition := it.dotPosition + 1 }) ∧
      (Sorted acc → Sorted r) ∧ InRange items := by
  induction items with
  | nil =>
    intro acc r h
    simp only [advanceItems, Except.ok.injEq] at h
    subst h
    exact ⟨fun x => by simp, fun h => h, fun x hx => by simp at hx⟩
  | cons it rest ih =>
    intro acc r h
    simp only [advanceItems] at h
    cases hs : substr it.production it.dotPosition 1 with
    | error e => simp only [hs] at h; cases h
    | ok sym =>
      simp only [hs] at h
      have hr : DotInRange it := substr_ok_iff.1 ⟨sym, hs⟩
      by_cases hsym : sym = symbol
      · subst hsym
        simp only [if_true] at h
        obtain ⟨h1, h2, h3⟩ := ih h
        refine ⟨?_, fun hs => h2 (sorted_setInsert hs), ?_⟩
        · intro x
          rw [h1, mem_setInsert]
          constructor
          · rintro ((rfl | hx) | ⟨j, hj, hjs, rfl⟩)
            · exact Or.inr ⟨it, List.mem_cons_self _ _, hs, rfl⟩
            · exact Or.inl hx
            · exact Or.inr ⟨j, List.mem_cons_of_mem _ hj, hjs, rfl⟩
          · rintro (hx | ⟨j, hj, hjs, rfl⟩)
            · exact Or.inl (Or.inr hx)
            · rcases List.mem_cons.1 hj with rfl | hj
              · exact Or.inl (Or.inl rfl)
              · exact Or.inr ⟨j, hj, hjs, rfl⟩
        · intro x hx
          rcases List.mem_cons.1 hx with rfl | hx
          · exact hr
          · exact h3 x hx
      · simp only [hsym, if_false] at h
        obtain ⟨h1, h2, h3⟩ := ih h
        refine ⟨?_, h2, ?_⟩
        · intro x
          rw [h1]
          constructor
          · rintro (hx | ⟨j, hj, hjs, rfl⟩)
            · exact Or.inl hx
            · exact Or.inr ⟨j, List.mem_cons_of_mem _ hj, hjs, rfl⟩
          · rintro (hx | ⟨j, hj, hjs, rfl⟩)
            · exact Or.inl hx
            · rcases List.mem_cons.1 hj with rfl | hj
              · rw [hs] at hjs
                simp only [Except.ok.injEq] at hjs
                exact absurd hjs hsym
              · exact Or.inr ⟨j, hj, hjs, rfl⟩
        · intro x hx
          rcases List.mem_cons.1 hx with rfl | hx
          · exact hr
          · exact h3 x hx

theorem advanceItems_total (symbol : String) (items : List LR0Item) : ∀ (acc : ItemSet),
    (∃ r, advanceItems symbol items acc = .ok r) ∨
      (advanceItems symbol items acc = .error .outOfRange ∧ ¬ InRange items) := by
  induction items with
  | nil => intro acc; exact Or.inl ⟨acc, rfl⟩
  | cons it rest ih =>
    intro acc
    simp only [advanceItems]
    cases hs : substr it.production it.dotPosition 1 with
    | error e =>
      obtain ⟨rfl, hn⟩ := substr_error hs
      exact Or.inr ⟨rfl, fun h => hn (h it (List.mem_cons_self _ _))⟩
    | ok sym =>
      simp only
      have hmono : ¬ InRange rest → ¬ InRange (it :: rest) :=
        fun hn h => hn (fun x hx => h x (List.mem_cons_of_mem _ hx))
      split
      · rcases ih (setInsert { production := it.production, dotPosition := it.dotPosition + 1 } acc)
          with h | ⟨h1, h2⟩
        · exact Or.inl h
        · exact Or.inr ⟨h1, hmono h2⟩
      · rcases ih acc with h | ⟨h1, h2⟩
        · exact Or.inl h
        · exact Or.inr ⟨h1, hmono h2⟩

/-- What `gotoLR0` returns, when it does not throw. -/
theorem gotoLR0_ok {g : Grammar} {items r : ItemSet} {symbol : String}
    (h : gotoLR0 items symbol g = .ok r) :
    InRange items ∧ Sorted r ∧ InRange r ∧ (∀ x ∈ r, ClosedAt g r x) ∧
      (∀ x, IsAdvanced items symbol x → x ∈ r) ∧
      (∀ x ∈ r, IsAdvanced items symbol x ∨ IsInitialItem g x) ∧
      (r ≠ [] ↔ ∃ x, IsAdvanced items symbol x) := by
  unfold gotoLR0 at h
  cases ha : advanceItems symbol items [] with
  | error e => simp only [ha] at h; cases h
  | ok newItems =>
    simp only [ha] at h
    obtain ⟨h1, h2, h3⟩ := advanceItems_ok ha
    have hsn : Sorted newItems := h2 (by simp [Sorted])
    obtain ⟨hg, _⟩ := closureLR0_ok h
    have hcl := closureLR0_closed hsn h
    have hadv : ∀ x, x ∈ newItems ↔ IsAdvanced items symbol x := by
      intro x
      rw [h1]
      simp [IsAdvanced]
    refine ⟨h3, hg.sorted hsn, ?_, hcl, ?_, ?_, ?_⟩
    · intro x hx
      obtain ⟨sym, hsym, _⟩ := hcl x hx
      exact substr_ok_iff.1 ⟨sym, hsym⟩
    · intro x hx
      exact hg.sub x ((hadv x).2 hx)
    · intro x hx
      rcases hg.fresh x hx with h4 | h4
      · exact Or.inl ((hadv x).1 h4)
      · exact Or.inr h4
    · constructor
      · intro hne
        by_contra hno
        have hnil : newItems = [] := by
          cases hnew : newItems with
          | nil => rfl
          | cons y ys =>
            exact absurd ⟨y, (hadv y).1 (by rw [hnew]; exact List.mem_cons_self _ _)⟩ hno
        rw [hnil, closureLR0_nil] at h
        simp only [Except.ok.injEq] at h
        exact hne h.symm
      · rintro ⟨x, hx⟩ hnil
        have := hg.sub x ((hadv x).2 hx)
        rw [hnil] at this
        simp at this

/-- The only fault of `gotoLR0` is `std::out_of_range`: at a dot of `items` out of range, or
after the dot was moved past the end over the empty symbol. -/
theorem gotoLR0_total (g : Grammar) (items : ItemSet) (symbol : String) :
    (∃ r, gotoLR0 items symbol g = .ok r) ∨
      (gotoLR0 items symbol g = .error .outOfRange ∧ (¬ InRange items ∨ symbol.length ≠ 1)) := by
  unfold gotoLR0
  rcases advanceItems_total symbol items [] with ⟨newItems, ha⟩ | ⟨h1, h2⟩
  · rw [ha]
    simp only
    rcases closureLR0_total g newItems with h | ⟨h3, h4⟩
    · exact Or.inl h
    · refine Or.inr ⟨h3, ?_⟩
      obtain ⟨hmem, _, hin⟩ := advanceItems_ok ha
      right
      intro hlen
      apply h4
      intro x hx
      rcases (hmem x).1 hx with hx | ⟨it, hit, hs, rfl⟩
      · simp at hx
      · have hr : DotInRange it := hin it hit
        have := (substr_length hs).1.1 hlen
        unfold DotInRange at hr ⊢
        simp only
        omega
  · rw [h1]
    exact Or.inr ⟨rfl, Or.inl h2⟩

/-! ## Searching a vector -/

theorem findIndex_le_length {α : Type} [DecidableEq α] (a : α) (l : List α) :
    findIndex a l ≤ l.length := by
  induction l with
  | nil => simp [findIndex]
  | cons b rest ih =>
    unfold findIndex
    split
    · omega
    · simp only [List.length_cons]; omega

theorem findIndex_eq_length {α : Type} [DecidableEq α] {a : α} {l : List α} :
    findIndex a l = l.length ↔ a ∉ l := by
  induction l with
  | nil => simp [findIndex]
  | cons b rest ih =>
    unfold findIndex
    by_cases h : b = a
    · simp [h]
    · have h2 : ¬ a = b := fun e => h e.symm
      simp [h, h2, ih]

theorem findIndex_lt_length {α : Type} [DecidableEq α] {a : α} {l : List α} :
    findIndex a l < l.length ↔ a ∈ l := by
  have h1 := findIndex_le_length a l
  have h2 := findIndex_eq_length (a := a) (l := l)
  constructor
  · intro h
    by_contra hc
    have := h2.2 hc
    omega
  · intro h
    by_contra hc
    exact h2.1 (by omega) h

theorem getD_findIndex {α : Type} [DecidableEq α] {a d : α} {l : List α}
    (h : findIndex a l < l.length) : l.getD (findIndex a l) d = a := by
  induction l with
  | nil => simp at h
  | cons b rest ih =>
    unfold findIndex at h ⊢
    by_cases hb : b = a
    · simp [hb]
    · simp only [hb, if_false, List.length_cons] at h ⊢
      rw [List.getD_cons_succ]
      exact ih (by omega)

theorem findIndex_getD {α : Type} [DecidableEq α] {d : α} {l : List α} (hn : l.Nodup)
    {i : Nat} (hi : i < l.length) : findIndex (l.getD i d) l = i := by
  induction l generalizing i with
  | nil => simp at hi
  | cons b rest ih =>
    rw [List.nodup_cons] at hn
    cases i with
    | zero => simp [findIndex]
    | succ n =>
      rw [List.getD_cons_succ]
      have hn2 : n < rest.length := by simpa using hi
      have hmem : rest.getD n d ∈ rest := by
        rw [List.getD_eq_getElem _ _ hn2]
        exact List.getElem_mem hn2
      have hne : ¬ b = rest.getD n d := fun e => hn.1 (e ▸ hmem)
      unfold findIndex
      simp only [hne, if_false]
      rw [ih hn.2 hn2]

/-! ## The transition map -/

theorem mapFind_mapAssign_self (k : Nat × String) (v : Nat) (t : Transitions) :
    mapFind k (mapAssign k v t) = some v := by
  induction t with
  | nil => simp [mapAssign, mapFind]
  | cons e rest ih =>
    obtain ⟨k2, v2⟩ := e
    unfold mapAssign
    split
    · simp [mapFind]
    · split
      · simp [mapFind]
      · rename_i h1 h2
        have h3 : ¬ k2 = k := fun h => h2 h.symm
        unfold mapFind at ih ⊢
        rw [List.find?_cons]
        simp only [h3, decide_False]
        exact ih

theorem mapFind_mapAssign_ne {k k2 : Nat × String} (h : k2 ≠ k) (v : Nat) (t : Transitions) :
    mapFind k2 (mapAssign k v t) = mapFind k2 t := by
  induction t with
  | nil =>
    have h3 : ¬ k = k2 := fun e => h e.symm
    simp [mapAssign, mapFind, h3]
  | cons e rest ih =>
    obtain ⟨k3, v3⟩ := e
    have h3 : ¬ k = k2 := fun e => h e.symm
    unfold mapAssign
    split
    · simp [mapFind, List.find?_cons, h3]
    · split
      · rename_i h1 h2
        subst h2
        simp [mapFind, List.find?_cons, h3]
      · unfold mapFind at ih ⊢
        rw [List.find?_cons, List.find?_cons]
        split
        · rfl
        · exact ih

theorem mapLe_refl (tr : Transitions) : MapLe tr tr := fun _ _ h => h

theorem mapLe_trans {a b c : Transitions} (h1 : MapLe a b) (h2 : MapLe b c) : MapLe a c :=
  fun k v h => h2 k v (h1 k v h)

/-- Assigning a key that is absent, or present with the same value, keeps every entry. -/
theorem mapLe_mapAssign {tr : Transitions} {k : Nat × String} {v : Nat}
    (h : ∀ w, mapFind k tr = some w → w = v) : MapLe tr (mapAssign k v tr) := by
  intro k2 w hw
  by_cases hk : k2 = k
  · subst hk
    rw [mapFind_mapAssign_self, h w hw]
  · rw [mapFind_mapAssign_ne hk]
    exact hw

theorem reach_mono {tr tr2 : Transitions} (h : MapLe tr tr2) {a b : Nat}
    (hr : Relation.ReflTransGen (Edge tr) a b) : Relation.ReflTransGen (Edge tr2) a b := by
  apply Relation.ReflTransGen.mono _ hr
  rintro x y ⟨X, hX⟩
  exact ⟨X, h _ _ hX⟩

/-! ## Counting the states -/

theorem mem_itemUniverse {g : Grammar} {x : LR0Item} (hp : x.production ∈ itemTexts g)
    (hr : DotInRange x) : x ∈ itemUniverse g := by
  unfold itemUniverse
  rw [List.mem_flatten]
  refine ⟨_, List.mem_map.2 ⟨x.production, hp, rfl⟩, ?_⟩
  unfold DotInRange at hr
  have hlt : x.dotPosition.toNat < x.production.length + 1 := by omega
  refine List.mem_map.2 ⟨x.dotPosition.toNat, List.mem_range.2 hlt, ?_⟩
  cases x with
  | mk p d =>
    simp only [LR0Item.mk.injEq, true_and]
    simp only at hr
    omega

/-- A duplicate-free list of ordered sets over `U` has at most `2 ^ |U|` elements. -/
theorem length_le_pow_of_nodup {U : List LR0Item} {sets : List ItemSet} (hn : sets.Nodup)
    (hs : ∀ s ∈ sets, Sorted s) (hU : ∀ s ∈ sets, ∀ x ∈ s, x ∈ U) :
    sets.length ≤ 2 ^ U.length := by
  have hinj : ∀ s ∈ sets, ∀ t ∈ sets, s.toFinset = t.toFinset → s = t := by
    intro s hs1 t ht1 he
    apply sorted_ext (hs s hs1) (hs t ht1)
    intro x
    rw [← List.mem_toFinset, he, List.mem_toFinset]
  have hnd : (sets.map List.toFinset).Nodup := List.Nodup.map_on hinj hn
  have hsub : (sets.map List.toFinset).toFinset ⊆ U.toFinset.powerset := by
    intro f hf
    rw [List.mem_toFinset, List.mem_map] at hf
    obtain ⟨s, hs1, rfl⟩ := hf
    rw [Finset.mem_powerset]
    intro x hx
    rw [List.mem_toFinset] at hx ⊢
    exact hU s hs1 x hx
  have h1 := Finset.card_le_card hsub
  rw [List.toFinset_card_of_nodup hnd, Finset.card_powerset, List.length_map] at h1
  exact h1.trans (Nat.pow_le_pow_right (by norm_num) (List.toFinset_card_le U))

theorem StatesOk.length_le {g : Grammar} {sets : List ItemSet} (h : StatesOk g sets) :
    sets.length ≤ 2 ^ (itemUniverse g).length :=
  length_le_pow_of_nodup h.nodup h.sorted
    (fun s hs x hx => mem_itemUniverse (h.texts s hs x hx) (h.inRange s hs x hx))

/-! ## The worklist loop: one symbol -/

theorem getD_mem {sets : List ItemSet} {i : Nat} (hi : i < sets.length) :
    sets.getD i [] ∈ sets := by
  rw [List.getD_eq_getElem _ _ hi]
  exact List.getElem_mem hi

theorem getD_append_left {sets : List ItemSet} {i : Nat} (hi : i < sets.length)
    (t : List ItemSet) : (sets ++ t).getD i [] = sets.getD i [] :=
  List.getD_append _ _ _ _ hi

theorem getD_append_last (sets : List ItemSet) (r : ItemSet) :
    (sets ++ [r]).getD sets.length [] = r := by
  rw [List.getD_append_right _ _ _ _ (le_refl _)]
  simp

/-- The goto of a state has the properties asked of a state. -/
theorem goto_state {g : Grammar} {sets : List ItemSet} {i : Nat} {X : String} {r : ItemSet}
    (hs : StatesOk g sets) (hi : i < sets.length)
    (hg : gotoLR0 (sets.getD i []) X g = .ok r) :
    Sorted r ∧ InRange r ∧ (∀ x ∈ r, x.production ∈ itemTexts g) ∧
      (∀ x ∈ r, ClosedAt g r x) := by
  obtain ⟨_, h2, h3, h4, _, h6, _⟩ := gotoLR0_ok hg
  refine ⟨h2, h3, ?_, h4⟩
  intro x hx
  rcases h6 x hx with ⟨it, hit, _, rfl⟩ | ⟨_, key, prods, hf, hp⟩
  · exact hs.texts _ (getD_mem hi) it hit
  · exact List.mem_append_right _ (mem_allProductions_of_grammarFind hf hp)

theorem Done.ext {g : Grammar} {sets : List ItemSet} {tr tr2 : Transitions} {i : Nat}
    {keys : List String} (h : Done g sets tr i keys) (hi : i < sets.length)
    (t : List ItemSet) (hle : MapLe tr tr2) : Done g (sets ++ t) tr2 i keys := by
  intro X hX
  obtain ⟨r, hg, hrec⟩ := h X hX
  refine ⟨r, by rw [getD_append_left hi]; exact hg, ?_⟩
  intro hne
  obtain ⟨j, hj, hget⟩ := hrec hne
  have hjl : j < sets.length := by
    by_contra hc
    rw [List.getD_eq_default _ _ (by omega)] at hget
    exact hne hget.symm
  exact ⟨j, hle _ _ hj, by rw [getD_append_left hjl]; exact hget⟩

/-- Lines 82-85 when the goto is a new state: it is appended and the transition recorded. -/
theorem step_append {g : Grammar} {sets : List ItemSet} {tr : Transitions} {i : Nat}
    {X : String} {r : ItemSet} (hs : StatesOk g sets) (ht : TransOk g sets tr)
    (hi : i < sets.length) (hX : X ∈ g.map Prod.fst)
    (hg : gotoLR0 (sets.getD i []) X g = .ok r) (hne : r ≠ []) (hnew : r ∉ sets) :
    StatesOk g (sets ++ [r]) ∧ TransOk g (sets ++ [r]) (mapAssign (i, X) sets.length tr) ∧
      MapLe tr (mapAssign (i, X) sets.length tr) := by
  obtain ⟨g1, g2, g3, g4⟩ := goto_state hs hi hg
  have hle : MapLe tr (mapAssign (i, X) sets.length tr) := by
    apply mapLe_mapAssign
    intro w hw
    obtain ⟨_, hw2, hw3⟩ := ht.sound i X w hw
    rw [hg] at hw3
    simp only [Except.ok.injEq] at hw3
    rw [hw3] at hnew
    exact absurd (getD_mem hw2) hnew
  refine ⟨⟨?_, ?_, ?_, ?_, ?_, ?_⟩, ⟨?_, ?_, ?_⟩, hle⟩
  · intro s hmem
    rcases List.mem_append.1 hmem with h | h
    · exact hs.nonempty s h
    · rw [List.mem_singleton.1 h]; exact hne
  · rw [List.nodup_append]
    refine ⟨hs.nodup, List.nodup_singleton r, ?_⟩
    intro s h1 h2
    rw [List.mem_singleton.1 h2] at h1
    exact hnew h1
  · intro s hmem
    rcases List.mem_append.1 hmem with h | h
    · exact hs.sorted s h
    · rw [List.mem_singleton.1 h]; exact g1
  · intro s hmem
    rcases List.mem_append.1 hmem with h | h
    · exact hs.inRange s h
    · rw [List.mem_singleton.1 h]; exact g2
  · intro s hmem
    rcases List.mem_append.1 hmem with h | h
    · exact hs.texts s h
    · rw [List.mem_singleton.1 h]; exact g3
  · intro s hmem
    rcases List.mem_append.1 hmem with h | h
    · exact hs.closed s h
    · rw [List.mem_singleton.1 h]; exact g4
  · intro i2 X2 j hj
    rw [List.length_append, List.length_singleton]
    by_cases hk : (i2, X2) = (i, X)
    · rw [hk, mapFind_mapAssign_self] at hj
      simp only [Option.some.injEq] at hj
      simp only [Prod.mk.injEq] at hk
      obtain ⟨rfl, rfl⟩ := hk
      subst hj
      refine ⟨by omega, by omega, ?_⟩
      rw [getD_append_left hi, getD_append_last]
      exact hg
    · rw [mapFind_mapAssign_ne hk] at hj
      obtain ⟨h1, h2, h3⟩ := ht.sound i2 X2 j hj
      refine ⟨by omega, by omega, ?_⟩
      rw [getD_append_left h1, getD_append_left h2]
      exact h3
  · intro i2 X2 j hj
    by_cases hk : (i2, X2) = (i, X)
    · simp only [Prod.mk.injEq] at hk
      rw [hk.2]
      exact hX
    · rw [mapFind_mapAssign_ne hk] at hj
      exact ht.isKey i2 X2 j hj
  · intro j hj
    rw [List.length_append, List.length_singleton] at hj
    by_cases hjl : j < sets.length
    · exact reach_mono hle (ht.reach j hjl)
    · have hjeq : j = sets.length := by omega
      rw [hjeq]
      exact (reach_mono hle (ht.reach i hi)).tail ⟨X, mapFind_mapAssign_self _ _ _⟩

/-- Lines 80 and 85 when the goto is a state of the vector: the transition is recorded. -/
theorem step_found {g : Grammar} {sets : List ItemSet} {tr : Transitions} {i : Nat}
    {X : String} {r : ItemSet} (hs : StatesOk g sets) (ht : TransOk g sets tr)
    (hi : i < sets.length) (hX : X ∈ g.map Prod.fst)
    (hg : gotoLR0 (sets.getD i []) X g = .ok r) (hold : r ∈ sets) :
    TransOk g sets (mapAssign (i, X) (findIndex r sets) tr) ∧
      MapLe tr (mapAssign (i, X) (findIndex r sets) tr) ∧
      sets.getD (findIndex r sets) [] = r ∧ findIndex r sets < sets.length := by
  have hlt : findIndex r sets < sets.length := findIndex_lt_length.2 hold
  have hget : sets.getD (findIndex r sets) [] = r := by
    exact getD_findIndex hlt
  have hle : MapLe tr (mapAssign (i, X) (findIndex r sets) tr) := by
    apply mapLe_mapAssign
    intro w hw
    obtain ⟨_, hw2, hw3⟩ := ht.sound i X w hw
    rw [hg] at hw3
    simp only [Except.ok.injEq] at hw3
    rw [hw3, findIndex_getD hs.nodup hw2]
  refine ⟨⟨?_, ?_, ?_⟩, hle, hget, hlt⟩
  · intro i2 X2 j hj
    by_cases hk : (i2, X2) = (i, X)
    · rw [hk, mapFind_mapAssign_self] at hj
      simp only [Option.some.injEq] at hj
      simp only [Prod.mk.injEq] at hk
      obtain ⟨rfl, rfl⟩ := hk
      subst hj
      refine ⟨hi, hlt, ?_⟩
      rw [hget]
      exact hg
    · rw [mapFind_mapAssign_ne hk] at hj
      exact ht.sound i2 X2 j hj
  · intro i2 X2 j hj
    by_cases hk : (i2, X2) = (i, X)
    · simp only [Prod.mk.injEq] at hk
      rw [hk.2]
      exact hX
    · rw [mapFind_mapAssign_ne hk] at hj
      exact ht.isKey i2 X2 j hj
  · intro j hj
    exact reach_mono hle (ht.reach j hj)

theorem Done.cons {g : Grammar} {sets : List ItemSet} {tr : Transitions} {i : Nat}
    {X : String} {keys : List String} (h1 : Done g sets tr i [X]) (h2 : Done g sets tr i keys) :
    Done g sets tr i (X :: keys) := by
  intro Y hY
  rcases List.mem_cons.1 hY with rfl | hY
  · exact h1 Y (List.mem_singleton_self Y)
  · exact h2 Y hY

/-- Lines 77-87: the loop over the keys keeps the invariants and processes every key. -/
theorem worklistKeys_ok {g : Grammar} {i : Nat} (ks : List (String × List String)) :
    ∀ {sets : List ItemSet} {tr : Transitions} {sets2 : List ItemSet} {tr2 : Transitions},
    worklistKeys g i ks sets tr = .ok (sets2, tr2) → (∀ k ∈ ks, k.1 ∈ g.map Prod.fst) →
    i < sets.length → StatesOk g sets → TransOk g sets tr →
      (∃ t, sets2 = sets ++ t) ∧ MapLe tr tr2 ∧ StatesOk g sets2 ∧ TransOk g sets2 tr2 ∧
        Done g sets2 tr2 i (ks.map Prod.fst) := by
  induction ks with
  | nil =>
    intro sets tr sets2 tr2 h _ _ hs ht
    simp only [worklistKeys, Except.ok.injEq, Prod.mk.injEq] at h
    obtain ⟨rfl, rfl⟩ := h
    exact ⟨⟨[], by simp⟩, mapLe_refl _, hs, ht, fun X hX => by simp at hX⟩
  | cons symbol rest ih =>
    intro sets tr sets2 tr2 h hks hi hs ht
    have hX : symbol.1 ∈ g.map Prod.fst := hks symbol (List.mem_cons_self _ _)
    have hrest : ∀ k ∈ rest, k.1 ∈ g.map Prod.fst :=
      fun k hk => hks k (List.mem_cons_of_mem _ hk)
    simp only [worklistKeys] at h
    cases hg : gotoLR0 (sets.getD i []) symbol.1 g with
    | error e => simp only [hg] at h; cases h
    | ok r =>
      simp only [hg] at h
      by_cases hne : r = []
      · simp only [hne, ne_eq, not_true_eq_false, if_false] at h
        obtain ⟨⟨t, ht2⟩, h2, h3, h4, h5⟩ := ih h hrest hi hs ht
        refine ⟨⟨t, ht2⟩, h2, h3, h4, ?_⟩
        rw [List.map_cons]
        refine Done.cons ?_ h5
        have hd : Done g sets tr i [symbol.1] := by
          intro Y hY
          rw [List.mem_singleton.1 hY]
          exact ⟨r, hg, fun h => absurd hne h⟩
        rw [ht2]
        exact hd.ext hi t h2
      · simp only [ne_eq, hne, not_false_eq_true, if_true] at h
        by_cases hidx : findIndex r sets = sets.length
        · simp only [hidx, if_true] at h
          have hnew : r ∉ sets := findIndex_eq_length.1 hidx
          obtain ⟨s1, t1, le1⟩ := step_append hs ht hi hX hg hne hnew
          have hi1 : i < (sets ++ [r]).length := by
            rw [List.length_append]; omega
          obtain ⟨⟨t, ht2⟩, h2, h3, h4, h5⟩ := ih h hrest hi1 s1 t1
          refine ⟨⟨[r] ++ t, by rw [ht2, List.append_assoc]⟩, mapLe_trans le1 h2, h3, h4, ?_⟩
          rw [List.map_cons]
          refine Done.cons ?_ h5
          have hd : Done g (sets ++ [r]) (mapAssign (i, symbol.1) sets.length tr) i
              [symbol.1] := by
            intro Y hY
            rw [List.mem_singleton.1 hY]
            refine ⟨r, by rw [getD_append_left hi]; exact hg, fun _ => ?_⟩
            exact ⟨sets.length, mapFind_mapAssign_self _ _ _, getD_append_last sets r⟩
          rw [ht2]
          exact hd.ext hi1 t h2
        · simp only [hidx, if_false] at h
          have hold : r ∈ sets := by
            by_contra hc
            exact hidx (findIndex_eq_length.2 hc)
          obtain ⟨t1, le1, hget, _⟩ := step_found hs ht hi hX hg hold
          obtain ⟨⟨t, ht2⟩, h2, h3, h4, h5⟩ := ih h hrest hi hs t1
          refine ⟨⟨t, ht2⟩, mapLe_trans le1 h2, h3, h4, ?_⟩
          rw [List.map_cons]
          refine Done.cons ?_ h5
          have hd : Done g sets (mapAssign (i, symbol.1) (findIndex r sets) tr) i
              [symbol.1] := by
            intro Y hY
            rw [List.mem_singleton.1 hY]
            exact ⟨r, hg, fun _ => ⟨findIndex r sets, mapFind_mapAssign_self _ _ _, hget⟩⟩
          rw [ht2]
          exact hd.ext hi t h2

/-- Lines 77-87 never run out of fuel: the loop returns, or a goto throws. -/
theorem worklistKeys_total {g : Grammar} {i : Nat} (ks : List (String × List String)) :
    ∀ {sets : List ItemSet} {tr : Transitions},
    (∀ k ∈ ks, k.1 ∈ g.map Prod.fst) → i < sets.length → StatesOk g sets → TransOk g sets tr →
      (∃ r, worklistKeys g i ks sets tr = .ok r) ∨
        (worklistKeys g i ks sets tr = .error .outOfRange ∧
          ∃ k ∈ g.map Prod.fst, k.length ≠ 1) := by
  induction ks with
  | nil => intro sets tr _ _ _ _; exact Or.inl ⟨_, rfl⟩
  | cons symbol rest ih =>
    intro sets tr hks hi hs ht
    have hX : symbol.1 ∈ g.map Prod.fst := hks symbol (List.mem_cons_self _ _)
    have hrest : ∀ k ∈ rest, k.1 ∈ g.map Prod.fst :=
      fun k hk => hks k (List.mem_cons_of_mem _ hk)
    simp only [worklistKeys]
    rcases gotoLR0_total g (sets.getD i []) symbol.1 with ⟨r, hg⟩ | ⟨h1, h2⟩
    · rw [hg]
      simp only
      by_cases hne : r = []
      · simp only [hne, ne_eq, not_true_eq_false, if_false]
        exact ih hrest hi hs ht
      · simp only [ne_eq, hne, not_false_eq_true, if_true]
        by_cases hidx : findIndex r sets = sets.length
        · simp only [hidx, if_true]
          have hnew : r ∉ sets := findIndex_eq_length.1 hidx
          obtain ⟨s1, t1, _⟩ := step_append hs ht hi hX hg hne hnew
          exact ih hrest (by rw [List.length_append]; omega) s1 t1
        · simp only [hidx, if_false]
          have hold : r ∈ sets := by
            by_contra hc
            exact hidx (findIndex_eq_length.2 hc)
          obtain ⟨t1, _, _, _⟩ := step_found hs ht hi hX hg hold
          exact ih hrest hi hs t1
    · rw [h1]
      refine Or.inr ⟨rfl, symbol.1, hX, ?_⟩
      rcases h2 with h2 | h2
      · exact absurd (hs.inRange _ (getD_mem hi)) h2
      · exact h2

/-! ## The worklist loop -/

/-- Lines 76-88: the worklist loop keeps the invariants and processes every state. -/
theorem worklist_ok {g : Grammar} (fuel : Nat) :
    ∀ {i : Nat} {sets : List ItemSet} {tr : Transitions} {sets2 : List ItemSet}
      {tr2 : Transitions},
    worklist g fuel i sets tr = .ok (sets2, tr2) → i ≤ sets.length →
    StatesOk g sets → TransOk g sets tr →
    (∀ i2, i2 < i → Done g sets tr i2 (g.map Prod.fst)) →
      (∃ t, sets2 = sets ++ t) ∧ MapLe tr tr2 ∧ StatesOk g sets2 ∧ TransOk g sets2 tr2 ∧
        (∀ i2, i2 < sets2.length → Done g sets2 tr2 i2 (g.map Prod.fst)) := by
  induction fuel with
  | zero => intro i sets tr sets2 tr2 h; simp [worklist] at h
  | succ n ih =>
    intro i sets tr sets2 tr2 h hi hs ht hd
    simp only [worklist] at h
    by_cases hlt : i < sets.length
    · simp only [hlt, if_true] at h
      cases hk : worklistKeys g i g sets tr with
      | error e => simp only [hk] at h; cases h
      | ok r =>
        obtain ⟨s1, t1⟩ := r
        simp only [hk] at h
        obtain ⟨⟨t, ht2⟩, le1, hs1, ht1, hd1⟩ :=
          worklistKeys_ok g hk (fun k hk => List.mem_map.2 ⟨k, hk, rfl⟩) hlt hs ht
        have hlen : i + 1 ≤ s1.length := by
          rw [ht2, List.length_append]; omega
        have hd2 : ∀ i2, i2 < i + 1 → Done g s1 t1 i2 (g.map Prod.fst) := by
          intro i2 hi2
          by_cases h2 : i2 < i
          · rw [ht2]
            exact (hd i2 h2).ext (by omega) t le1
          · have : i2 = i := by omega
            rw [this]
            exact hd1
        obtain ⟨⟨u, hu⟩, le2, r3, r4, r5⟩ := ih h hlen hs1 ht1 hd2
        exact ⟨⟨t ++ u, by rw [hu, ht2, List.append_assoc]⟩, mapLe_trans le1 le2, r3, r4, r5⟩
    · simp only [hlt, if_false, Except.ok.injEq, Prod.mk.injEq] at h
      obtain ⟨rfl, rfl⟩ := h
      refine ⟨⟨[], by simp⟩, mapLe_refl _, hs, ht, ?_⟩
      intro i2 hi2
      exact hd i2 (by omega)

/-- Lines 76-88 end: with the fuel of `constructLR0ParsingTable` the loop returns, or a goto
throws, which takes a key that is not one character long. -/
theorem worklist_total {g : Grammar} (fuel : Nat) :
    ∀ {i : Nat} {sets : List ItemSet} {tr : Transitions},
    i ≤ sets.length → StatesOk g sets → TransOk g sets tr →
    2 ^ (itemUniverse g).length + 1 ≤ fuel + i →
      (∃ r, worklist g fuel i sets tr = .ok r) ∨
        (worklist g fuel i sets tr = .error .outOfRange ∧
          ∃ k ∈ g.map Prod.fst, k.length ≠ 1) := by
  induction fuel with
  | zero =>
    intro i sets tr hi hs _ hf
    have := hs.length_le
    omega
  | succ n ih =>
    intro i sets tr hi hs ht hf
    simp only [worklist]
    by_cases hlt : i < sets.length
    · simp only [hlt, if_true]
      rcases worklistKeys_total (i := i) g (fun k hk => List.mem_map.2 ⟨k, hk, rfl⟩) hlt hs ht
        with ⟨r, hk⟩ | ⟨h1, h2⟩
      · obtain ⟨s1, t1⟩ := r
        rw [hk]
        simp only
        obtain ⟨⟨t, ht2⟩, _, hs1, ht1, _⟩ :=
          worklistKeys_ok g hk (fun k hk => List.mem_map.2 ⟨k, hk, rfl⟩) hlt hs ht
        have hlen : i + 1 ≤ s1.length := by
          rw [ht2, List.length_append]; omega
        exact ih hlen hs1 ht1 (by omega)
      · rw [h1]
        exact Or.inr ⟨rfl, h2⟩
    · simp only [hlt, if_false]
      exact Or.inl ⟨_, rfl⟩

/-! ## The table and the second pass over the transitions -/

/-- Lines 107-113 add nothing for a state the worklist loop has processed. -/
theorem secondPass_noop {g : Grammar} {sets : List ItemSet} {tr : Transitions} {i : Nat}
    (hs : StatesOk g sets) (ks : List (String × List String)) :
    Done g sets tr i (ks.map Prod.fst) → secondPass g sets i ks tr = .ok tr := by
  induction ks with
  | nil => intro _; rfl
  | cons symbol rest ih =>
    intro hd
    have hrest : Done g sets tr i (rest.map Prod.fst) :=
      fun X hX => hd X (by rw [List.map_cons]; exact List.mem_cons_of_mem _ hX)
    obtain ⟨r, hg, hrec⟩ := hd symbol.1 (by rw [List.map_cons]; exact List.mem_cons_self _ _)
    simp only [secondPass, hg]
    have hcond : ¬ (findIndex r sets < sets.length ∧ mapFind (i, symbol.1) tr = none) := by
      rintro ⟨h1, h2⟩
      have hmem : r ∈ sets := findIndex_lt_length.1 h1
      obtain ⟨j, hj, _⟩ := hrec (hs.nonempty r hmem)
      rw [h2] at hj
      cases hj
    rw [if_neg hcond]
    exact ih hrest

/-- Lines 92-114 after the worklist loop: the rows are filled, the transitions are as they
were. -/
theorem fillTable_eq {g : Grammar} {sets : List ItemSet} {tr : Transitions}
    (hs : StatesOk g sets) (hd : ∀ i, i < sets.length → Done g sets tr i (g.map Prod.fst))
    (idxs : List Nat) : ∀ (table : List (List String)), (∀ i ∈ idxs, i < sets.length) →
      fillTable g sets idxs table tr = .ok (fillRows g sets idxs table, tr) := by
  induction idxs with
  | nil => intro table _; rfl
  | cons i rest ih =>
    intro table hi
    simp only [fillTable, fillRows]
    rw [secondPass_noop hs g (hd i (hi i (List.mem_cons_self _ _)))]
    exact ih _ (fun j hj => hi j (List.mem_cons_of_mem _ hj))

/-! ## The construction as a whole -/

theorem generateLR0Items_cons (k : String) (ps : List String) (g : Grammar) :
    ∃ rest, generateLR0Items ((k, ps) :: g) = { production := k, dotPosition := 0 } :: rest := by
  unfold generateLR0Items
  rw [List.map_cons, List.flatten_cons, List.range_succ_eq_map, List.map_cons,
    List.cons_append]
  exact ⟨_, rfl⟩

theorem generateLR0Items_head {g : Grammar} {item0 : LR0Item} {rest : List LR0Item}
    (h : generateLR0Items g = item0 :: rest) :
    item0.dotPosition = 0 ∧ [item0.production] = (g.map Prod.fst).take 1 := by
  cases g with
  | nil => simp [generateLR0Items] at h
  | cons e g2 =>
    obtain ⟨k, ps⟩ := e
    obtain ⟨r2, h2⟩ := generateLR0Items_cons k ps g2
    rw [h2] at h
    simp only [List.cons.injEq] at h
    rw [← h.1]
    simp

/-- The start state and the empty transition map satisfy the invariants. -/
theorem initial_ok {g : Grammar} {item0 : LR0Item} {rest : List LR0Item} {state0 : ItemSet}
    (hgen : generateLR0Items g = item0 :: rest) (hc : closureLR0 [item0] g = .ok state0) :
    StatesOk g [state0] ∧ TransOk g [state0] [] := by
  obtain ⟨h0, htake⟩ := generateLR0Items_head hgen
  have hsorted : Sorted [item0] := by simp [Sorted]
  obtain ⟨hg, _⟩ := closureLR0_ok hc
  have hcl := closureLR0_closed hsorted hc
  refine ⟨⟨?_, ?_, ?_, ?_, ?_, ?_⟩, ⟨?_, ?_, ?_⟩⟩
  · intro s hs
    rw [List.mem_singleton.1 hs]
    intro hnil
    have := hg.sub item0 (List.mem_singleton_self _)
    rw [hnil] at this
    simp at this
  · exact List.nodup_singleton _
  · intro s hs
    rw [List.mem_singleton.1 hs]
    exact hg.sorted hsorted
  · intro s hs x hx
    rw [List.mem_singleton.1 hs] at hx
    obtain ⟨sym, hsym, _⟩ := hcl x hx
    exact substr_ok_iff.1 ⟨sym, hsym⟩
  · intro s hs x hx
    rw [List.mem_singleton.1 hs] at hx
    rcases hg.fresh x hx with h | ⟨_, key, prods, hf, hp⟩
    · rw [List.mem_singleton.1 h]
      unfold itemTexts
      rw [← htake]
      simp
    · exact List.mem_append_right _ (mem_allProductions_of_grammarFind hf hp)
  · intro s hs
    rw [List.mem_singleton.1 hs]
    exact hcl
  · intro i X j hj
    simp [mapFind] at hj
  · intro i X j hj
    simp [mapFind] at hj
  · intro j hj
    have : j = 0 := by simpa using hj
    rw [this]

/-- A successful run of `constructLR0ParsingTable` has the shape and the invariants of
`Run`. -/
theorem run_of_ok {g : Grammar} {sets : List ItemSet} {table : List (List String)}
    {tr : Transitions} (h : constructLR0ParsingTable g = .ok (sets, table, tr)) :
    Run g sets table tr := by
  unfold constructLR0ParsingTable at h
  cases hgen : generateLR0Items g with
  | nil => simp only [hgen] at h; cases h
  | cons item0 rest =>
    simp only [hgen] at h
    cases hc : closureLR0 [item0] g with
    | error e => simp only [hc] at h; cases h
    | ok state0 =>
      simp only [hc] at h
      cases hw : worklist g (2 ^ (itemUniverse g).length + 1) 0 [state0] [] with
      | error e => simp only [hw] at h; cases h
      | ok r =>
        obtain ⟨sets1, tr1⟩ := r
        simp only [hw] at h
        obtain ⟨hs0, ht0⟩ := initial_ok hgen hc
        obtain ⟨⟨t, ht⟩, _, hs, htr, hd⟩ :=
          worklist_ok _ hw (Nat.zero_le _) hs0 ht0 (fun i2 hi2 => absurd hi2 (Nat.not_lt_zero _))
        rw [fillTable_eq hs hd _ _ (fun i hi => List.mem_range.1 hi)] at h
        simp only [Except.ok.injEq, Prod.mk.injEq] at h
        obtain ⟨rfl, rfl, rfl⟩ := h
        exact ⟨⟨item0, rest, state0, t, hgen, hc, hw, ht⟩, hs, htr, hd, rfl⟩

/-- The run ends without running out of fuel: `constructLR0ParsingTable` returns, or the
grammar is empty, or a goto throws, which takes a key that is not one character long. -/
theorem construct_total (g : Grammar) :
    (∃ r, constructLR0ParsingTable g = .ok r) ∨
      (constructLR0ParsingTable g = .error .emptyVector ∧ g = []) ∨
      (constructLR0ParsingTable g = .error .outOfRange ∧ ∃ k ∈ g.map Prod.fst, k.length ≠ 1) := by
  unfold constructLR0ParsingTable
  cases hgen : generateLR0Items g with
  | nil =>
    right; left
    refine ⟨rfl, ?_⟩
    cases g with
    | nil => rfl
    | cons e g2 =>
      obtain ⟨k, ps⟩ := e
      obtain ⟨r2, h2⟩ := generateLR0Items_cons k ps g2
      rw [h2] at hgen
      cases hgen
  | cons item0 rest =>
    simp only
    obtain ⟨h0, _⟩ := generateLR0Items_head hgen
    rcases closureLR0_total g [item0] with ⟨state0, hc⟩ | ⟨_, h2⟩
    · rw [hc]
      simp only
      obtain ⟨hs0, ht0⟩ := initial_ok hgen hc
      rcases worklist_total (g := g) (2 ^ (itemUniverse g).length + 1) (i := 0)
          (Nat.zero_le _) hs0 ht0 (le_refl _) with ⟨r, hw⟩ | ⟨h3, h4⟩
      · obtain ⟨sets1, tr1⟩ := r
        rw [hw]
        simp only
        obtain ⟨_, _, hs, _, hd⟩ :=
          worklist_ok _ hw (Nat.zero_le _) hs0 ht0 (fun i2 hi2 => absurd hi2 (Nat.not_lt_zero _))
        rw [fillTable_eq hs hd _ _ (fun i hi => List.mem_range.1 hi)]
        exact Or.inl ⟨_, rfl⟩
      · rw [h3]
        exact Or.inr (Or.inr ⟨rfl, h4⟩)
    · exfalso
      apply h2
      intro x hx
      rw [List.mem_singleton.1 hx]
      unfold DotInRange
      rw [h0]
      exact ⟨le_refl 0, Int.ofNat_nonneg _⟩

/-! ## The rows of the table -/

theorem getD_set_self {α : Type} {l : List α} {i : Nat} (a d : α) (h : i < l.length) :
    (l.set i a).getD i d = a := by
  rw [List.getD_eq_getElem?_getD, List.getElem?_set, if_pos rfl, if_pos h]
  rfl

theorem getD_set_ne {α : Type} {l : List α} {i j : Nat} (a d : α) (h : i ≠ j) :
    (l.set i a).getD j d = l.getD j d := by
  rw [List.getD_eq_getElem?_getD, List.getElem?_set, if_neg h, ← List.getD_eq_getElem?_getD]

theorem fillRow_length (g : Grammar) (items : List LR0Item) :
    ∀ row : List String, (fillRow g items row).length = row.length := by
  induction items with
  | nil => intro row; rfl
  | cons item rest ih =>
    intro row
    unfold fillRow
    split
    · split
      · rw [ih, List.length_set]
      · split
        · rw [ih, List.length_set]
        · exact ih row
    · exact ih row

/-- The cell of a key column after lines 93-105: the reduce action of the column when an item
of the state is filed there, and what it was otherwise. -/
theorem fillRow_reduce {g : Grammar} {c : Nat} (hc : c < g.length) (items : List LR0Item) :
    ∀ row : List String, row.length = g.length + 1 →
      ((∃ item ∈ items, WritesReduce g item c) →
        (fillRow g items row).getD c "" = "reduce " ++ toString (c + 1)) ∧
      ((¬ ∃ item ∈ items, WritesReduce g item c) →
        (fillRow g items row).getD c "" = row.getD c "") := by
  induction items with
  | nil =>
    intro row _
    exact ⟨fun ⟨_, h, _⟩ => absurd h (List.not_mem_nil _), fun _ => rfl⟩
  | cons item rest ih =>
    intro row hrow
    have key : ∀ row2 : List String, row2.length = g.length + 1 →
        (WritesReduce g item c → row2.getD c "" = "reduce " ++ toString (c + 1)) →
        (¬ WritesReduce g item c → row2.getD c "" = row.getD c "") →
        ((∃ it ∈ item :: rest, WritesReduce g it c) →
          (fillRow g rest row2).getD c "" = "reduce " ++ toString (c + 1)) ∧
        ((¬ ∃ it ∈ item :: rest, WritesReduce g it c) →
          (fillRow g rest row2).getD c "" = row.getD c "") := by
      intro row2 hlen hw hnw
      obtain ⟨ih1, ih2⟩ := ih row2 hlen
      constructor
      · rintro ⟨it, hit, hitw⟩
        by_cases hrest : ∃ it2 ∈ rest, WritesReduce g it2 c
        · exact ih1 hrest
        · rw [ih2 hrest]
          rcases List.mem_cons.1 hit with rfl | hit
          · exact hw hitw
          · exact absurd ⟨it, hit, hitw⟩ hrest
      · intro hno
        have hrest : ¬ ∃ it2 ∈ rest, WritesReduce g it2 c :=
          fun ⟨it2, h2, h3⟩ => hno ⟨it2, List.mem_cons_of_mem _ h2, h3⟩
        rw [ih2 hrest]
        exact hnw (fun h => hno ⟨item, List.mem_cons_self _ _, h⟩)
    unfold fillRow
    by_cases hcomp : item.dotPosition = (item.production.length : Int)
    · rw [if_pos hcomp]
      by_cases hacc : isAcceptProduction item.production = true
      · rw [if_pos hacc]
        have hne : row.length - 1 ≠ c := by omega
        apply key _ (by rw [List.length_set]; exact hrow)
        · intro hw
          rw [hw.2.1] at hacc
          exact absurd hacc (by decide)
        · intro _
          exact getD_set_ne _ _ hne
      · rw [if_neg hacc]
        have hacc2 : isAcceptProduction item.production = false := by
          simpa using hacc
        by_cases hidx : findKeyIndex g (charAt item.production 0) < g.length
        · rw [if_pos hidx]
          apply key _ (by rw [List.length_set]; exact hrow)
          · intro hw
            rw [hw.2.2.1]
            exact getD_set_self _ _ (by omega)
          · intro hnw
            apply getD_set_ne
            intro he
            exact hnw ⟨hcomp, hacc2, he, hc⟩
        · rw [if_neg hidx]
          apply key row hrow
          · intro hw
            rw [hw.2.2.1] at hidx
            exact absurd hc hidx
          · intro _; rfl
    · rw [if_neg hcomp]
      apply key row hrow
      · intro hw
        exact absurd hw.1 hcomp
      · intro _; rfl

/-- The last cell after lines 93-105: `accept` when an item of the state passes the test of
line 95, and what it was otherwise. -/
theorem fillRow_accept {g : Grammar} (items : List LR0Item) :
    ∀ row : List String, row.length = g.length + 1 →
      ((∃ item ∈ items, WritesAccept item) →
        (fillRow g items row).getD g.length "" = "accept") ∧
      ((¬ ∃ item ∈ items, WritesAccept item) →
        (fillRow g items row).getD g.length "" = row.getD g.length "") := by
  induction items with
  | nil =>
    intro row _
    exact ⟨fun ⟨_, h, _⟩ => absurd h (List.not_mem_nil _), fun _ => rfl⟩
  | cons item rest ih =>
    intro row hrow
    have key : ∀ row2 : List String, row2.length = g.length + 1 →
        (WritesAccept item → row2.getD g.length "" = "accept") →
        (¬ WritesAccept item → row2.getD g.length "" = row.getD g.length "") →
        ((∃ it ∈ item :: rest, WritesAccept it) →
          (fillRow g rest row2).getD g.length "" = "accept") ∧
        ((¬ ∃ it ∈ item :: rest, WritesAccept it) →
          (fillRow g rest row2).getD g.length "" = row.getD g.length "") := by
      intro row2 hlen hw hnw
      obtain ⟨ih1, ih2⟩ := ih row2 hlen
      constructor
      · rintro ⟨it, hit, hitw⟩
        by_cases hrest : ∃ it2 ∈ rest, WritesAccept it2
        · exact ih1 hrest
        · rw [ih2 hrest]
          rcases List.mem_cons.1 hit with rfl | hit
          · exact hw hitw
          · exact absurd ⟨it, hit, hitw⟩ hrest
      · intro hno
        have hrest : ¬ ∃ it2 ∈ rest, WritesAccept it2 :=
          fun ⟨it2, h2, h3⟩ => hno ⟨it2, List.mem_cons_of_mem _ h2, h3⟩
        rw [ih2 hrest]
        exact hnw (fun h => hno ⟨item, List.mem_cons_self _ _, h⟩)
    unfold fillRow
    by_cases hcomp : item.dotPosition = (item.production.length : Int)
    · rw [if_pos hcomp]
      by_cases hacc : isAcceptProduction item.production = true
      · rw [if_pos hacc]
        have he : row.length - 1 = g.length := by omega
        apply key _ (by rw [List.length_set]; exact hrow)
        · intro _
          rw [he]
          exact getD_set_self _ _ (by omega)
        · intro hnw
          exact absurd ⟨hcomp, hacc⟩ hnw
      · rw [if_neg hacc]
        by_cases hidx : findKeyIndex g (charAt item.production 0) < g.length
        · rw [if_pos hidx]
          apply key _ (by rw [List.length_set]; exact hrow)
          · intro hw
            exact absurd hw.2 hacc
          · intro _
            exact getD_set_ne _ _ (by omega)
        · rw [if_neg hidx]
          apply key row hrow
          · intro hw
            exact absurd hw.2 hacc
          · intro _; rfl
    · rw [if_neg hcomp]
      apply key row hrow
      · intro hw
        exact absurd hw.1 hcomp
      · intro _; rfl

theorem fillRows_length (g : Grammar) (sets : List ItemSet) (idxs : List Nat) :
    ∀ table : List (List String), (fillRows g sets idxs table).length = table.length := by
  induction idxs with
  | nil => intro table; rfl
  | cons j rest ih =>
    intro table
    unfold fillRows
    rw [ih, List.length_set]

/-- Lines 92-105 write the row of each index once, from the row as it was. -/
theorem fillRows_getD (g : Grammar) (sets : List ItemSet) (idxs : List Nat) :
    ∀ table : List (List String), idxs.Nodup → ∀ i, i < table.length →
      (fillRows g sets idxs table).getD i [] =
        if i ∈ idxs then fillRow g (sets.getD i []) (table.getD i []) else table.getD i [] := by
  induction idxs with
  | nil => intro table _ i _; simp [fillRows]
  | cons j rest ih =>
    intro table hn i hi
    rw [List.nodup_cons] at hn
    unfold fillRows
    rw [ih _ hn.2 i (by rw [List.length_set]; exact hi)]
    by_cases hij : j = i
    · subst hij
      rw [if_neg hn.1, if_pos (List.mem_cons_self _ _)]
      exact getD_set_self _ _ hi
    · rw [getD_set_ne _ _ hij]
      have hiff : i ∈ j :: rest ↔ i ∈ rest := by
        rw [List.mem_cons]
        constructor
        · rintro (h | h)
          · exact absurd h.symm hij
          · exact h
        · exact Or.inr
      by_cases hmem : i ∈ rest
      · rw [if_pos hmem, if_pos (hiff.2 hmem)]
      · rw [if_neg hmem, if_neg (fun h => hmem (hiff.1 h))]

/-- The table of a run: one row per state, the row of state `i` written by lines 93-105 from
the empty row. -/
theorem run_row {g : Grammar} {sets : List ItemSet} {table : List (List String)}
    {tr : Transitions} (hrun : Run g sets table tr) :
    table.length = sets.length ∧
      ∀ i, i < sets.length →
        table.getD i [] = fillRow g (sets.getD i []) (List.replicate (g.length + 1) "") := by
  rw [hrun.rows]
  constructor
  · rw [fillRows_length, List.length_replicate]
  · intro i hi
    rw [fillRows_getD g sets _ _ (List.nodup_range _) i (by rw [List.length_replicate]; exact hi),
      if_pos (List.mem_range.2 hi)]
    congr 1
    rw [List.getD_eq_getElem _ _ (by rw [List.length_replicate]; exact hi)]
    exact List.getElem_replicate _ _

/-- The cells of the table of a run. -/
theorem run_cells {g : Grammar} {sets : List ItemSet} {table : List (List String)}
    {tr : Transitions} (hrun : Run g sets table tr) {i : Nat} (hi : i < sets.length) :
    (table.getD i []).length = g.length + 1 ∧
    (∀ c, c < g.length →
      ((∃ item ∈ sets.getD i [], WritesReduce g item c) →
        (table.getD i []).getD c "" = "reduce " ++ toString (c + 1)) ∧
      ((¬ ∃ item ∈ sets.getD i [], WritesReduce g item c) →
        (table.getD i []).getD c "" = "")) ∧
    ((∃ item ∈ sets.getD i [], WritesAccept item) →
      (table.getD i []).getD g.length "" = "accept") ∧
    ((¬ ∃ item ∈ sets.getD i [], WritesAccept item) →
      (table.getD i []).getD g.length "" = "") := by
  rw [(run_row hrun).2 i hi]
  have hlen : (List.replicate (g.length + 1) "").length = g.length + 1 :=
    List.length_replicate _ _
  have hblank : ∀ c, (List.replicate (g.length + 1) "").getD c "" = "" := by
    intro c
    rw [List.getD_eq_getElem?_getD, List.getElem?_replicate]
    split <;> rfl
  refine ⟨by rw [fillRow_length, hlen], ?_, ?_, ?_⟩
  · intro c hc
    obtain ⟨h1, h2⟩ := fillRow_reduce hc (sets.getD i []) _ hlen
    exact ⟨h1, fun h => by rw [h2 h, hblank]⟩
  · exact (fillRow_accept (sets.getD i []) _ hlen).1
  · intro h
    rw [(fillRow_accept (sets.getD i []) _ hlen).2 h, hblank]

/-! ## Evaluation on the examples -/

theorem construct_exampleGrammar :
    constructLR0ParsingTable exampleGrammar =
      .ok (exampleStates, exampleTable, exampleTransitions) := by
  rfl

/-! ## The claims -/

/-- C1. Closure is idempotent: for every grammar and every item set `I` whose items have
`0 ≤ dotPosition ≤ length(production)`, `closureLR0` returns a set `c` on `I`, and
`closureLR0` applied to `c` returns exactly `c`. -/
theorem closureLR0_idempotent (g : Grammar) (I : ItemSet)
    (hI : ∀ x ∈ I, 0 ≤ x.dotPosition ∧ x.dotPosition ≤ (x.production.length : Int)) :
    ∃ c, closureLR0 I g = .ok c ∧ closureLR0 c g = .ok c := by
  rcases closureLR0_total g I with ⟨c, hc⟩ | ⟨_, h2⟩
  · exact ⟨c, hc, closureLR0_fixed (closureLR0_ok hc).2⟩
  · exact absurd hI h2

theorem closureLR0_idempotent_witness :
    (∀ x ∈ ([{ production := "S", dotPosition := 0 }] : ItemSet),
      0 ≤ x.dotPosition ∧ x.dotPosition ≤ (x.production.length : Int)) ∧
    ∃ c, closureLR0 [{ production := "S", dotPosition := 0 }] exampleGrammar = .ok c ∧
      closureLR0 c exampleGrammar = .ok c :=
  ⟨by decide, closureLR0_idempotent exampleGrammar [{ production := "S", dotPosition := 0 }]
    (by decide)⟩

/-- C2. `closureLR0` computes the least fixed point. For every grammar and every seed (a
`std::set`, so in ascending order): when the dots of the seed are in range `closureLR0`
returns; and whatever it returns contains the seed, contains `(p, 0)` for every production `p`
of `X` whenever one of its items has the symbol `X` after its dot and `X` is a key of the
grammar (a one-character `X` in particular), holds outside the seed only items `(p, 0)` for a
production `p` of some key, and lies inside every collection of items that contains the seed
and is closed under that rule. -/
theorem closureLR0_least_fixed_point (g : Grammar) (seed : ItemSet) (hs : Sorted seed) :
    ((∀ x ∈ seed, 0 ≤ x.dotPosition ∧ x.dotPosition ≤ (x.production.length : Int)) →
      ∃ c, closureLR0 seed g = .ok c) ∧
    ∀ c, closureLR0 seed g = .ok c →
      (∀ x ∈ seed, x ∈ c) ∧
      (∀ x ∈ c, ∀ X prods, substr x.production x.dotPosition 1 = .ok X →
        grammarFind X g = some prods →
          ∀ p ∈ prods, ({ production := p, dotPosition := 0 } : LR0Item) ∈ c) ∧
      (∀ x ∈ c, x ∉ seed →
        x.dotPosition = 0 ∧ ∃ key prods, grammarFind key g = some prods ∧ x.production ∈ prods) ∧
      (∀ T : LR0Item → Prop,
        (∀ x, T x → ∀ X prods, substr x.production x.dotPosition 1 = .ok X →
          grammarFind X g = some prods → ∀ p ∈ prods, T { production := p, dotPosition := 0 }) →
        (∀ x ∈ seed, T x) → ∀ x ∈ c, T x) := by
  constructor
  · intro hr
    rcases closureLR0_total g seed with h | ⟨_, h2⟩
    · exact h
    · exact absurd hr h2
  · intro c hc
    obtain ⟨hg, _⟩ := closureLR0_ok hc
    have hcl := closureLR0_closed hs hc
    refine ⟨hg.sub, ?_, ?_, ?_⟩
    · intro x hx X prods hX hf p hp
      obtain ⟨sym, hsym, hall⟩ := hcl x hx
      rw [hX] at hsym
      simp only [Except.ok.injEq] at hsym
      subst hsym
      exact hall prods hf p hp
    · intro x hx hns
      rcases hg.fresh x hx with h | h
      · exact absurd h hns
      · exact h
    · intro T hT hseed
      exact hg.least T hT hseed

theorem closureLR0_least_fixed_point_witness :
    Sorted [{ production := "S", dotPosition := 0 }] ∧
    closureLR0 [{ production := "S", dotPosition := 0 }] exampleGrammar =
      .ok [{ production := "S", dotPosition := 0 }, { production := "a", dotPosition := 0 }] ∧
    ({ production := "a", dotPosition := 0 } : LR0Item) ∈
      ([{ production := "S", dotPosition := 0 }, { production := "a", dotPosition := 0 }] :
        ItemSet) :=
  have hs : Sorted [{ production := "S", dotPosition := 0 }] := by
    unfold Sorted; decide
  ⟨hs, rfl,
    ((closureLR0_least_fixed_point exampleGrammar [{ production := "S", dotPosition := 0 }]
      hs).2 _ rfl).2.1 { production := "S", dotPosition := 0 } (by decide) "S" ["a"] rfl rfl
      "a" (by decide)⟩

/-- C3. Every transition recorded by `constructLR0ParsingTable` is sound: for every grammar
and every entry `(i, X) -> j` of the returned transition map, `i` and `j` are indices of
states, `gotoLR0(states[i], X)` returns a non-empty set, and that set is `states[j]`. -/
theorem transitions_sound (g : Grammar) (states : List ItemSet) (table : List (List String))
    (trans : Transitions) (h : constructLR0ParsingTable g = .ok (states, table, trans))
    (i : Nat) (X : String) (j : Nat) (he : mapFind (i, X) trans = some j) :
    i < states.length ∧ j < states.length ∧
      ∃ r, gotoLR0 (states.getD i []) X g = .ok r ∧ r ≠ [] ∧ states.getD j [] = r ∧
        ∀ x, x ∈ r ↔ x ∈ states.getD j [] := by
  have hrun := run_of_ok h
  obtain ⟨h1, h2, h3⟩ := hrun.transOk.sound i X j he
  refine ⟨h1, h2, states.getD j [], h3, hrun.statesOk.nonempty _ (getD_mem h2), rfl, fun x => Iff.rfl⟩

theorem transitions_sound_witness :
    constructLR0ParsingTable exampleGrammar =
      .ok (exampleStates, exampleTable, exampleTransitions) ∧
    mapFind (0, "S") exampleTransitions = some 1 ∧
    (0 < exampleStates.length ∧ 1 < exampleStates.length ∧
      ∃ r, gotoLR0 (exampleStates.getD 0 []) "S" exampleGrammar = .ok r ∧ r ≠ [] ∧
        exampleStates.getD 1 [] = r ∧ ∀ x, x ∈ r ↔ x ∈ exampleStates.getD 1 []) :=
  ⟨rfl, rfl, transitions_sound exampleGrammar exampleStates exampleTable exampleTransitions rfl
    0 "S" 1 rfl⟩

/-- C4, as the code has it. The transition map is complete over the keys of the grammar, and
only over them: for every grammar, every state index `i` of the result and every key `X`,
`gotoLR0(states[i], X)` returns, and when it is non-empty the returned transition map has an
entry for `(i, X)` and it points to a state equal to that set; and every entry of the map is
labelled by a key. -/
theorem transitions_complete_over_keys (g : Grammar) (states : List ItemSet)
    (table : List (List String)) (trans : Transitions)
    (h : constructLR0ParsingTable g = .ok (states, table, trans)) :
    (∀ i, i < states.length → ∀ X ∈ g.map Prod.fst,
      ∃ r, gotoLR0 (states.getD i []) X g = .ok r ∧
        (r ≠ [] → ∃ j, mapFind (i, X) trans = some j ∧ j < states.length ∧
          states.getD j [] = r)) ∧
    (∀ i X j, mapFind (i, X) trans = some j → X ∈ g.map Prod.fst) := by
  have hrun := run_of_ok h
  refine ⟨?_, hrun.transOk.isKey⟩
  intro i hi X hX
  obtain ⟨r, hr, hrec⟩ := hrun.done i hi X hX
  refine ⟨r, hr, fun hne => ?_⟩
  obtain ⟨j, hj, hget⟩ := hrec hne
  exact ⟨j, hj, (hrun.transOk.sound i X j hj).2.1, hget⟩

theorem transitions_complete_over_keys_witness :
    constructLR0ParsingTable exampleGrammar =
      .ok (exampleStates, exampleTable, exampleTransitions) ∧
    ((∀ i, i < exampleStates.length → ∀ X ∈ exampleGrammar.map Prod.fst,
      ∃ r, gotoLR0 (exampleStates.getD i []) X exampleGrammar = .ok r ∧
        (r ≠ [] → ∃ j, mapFind (i, X) exampleTransitions = some j ∧ j < exampleStates.length ∧
          exampleStates.getD j [] = r)) ∧
    (∀ i X j, mapFind (i, X) exampleTransitions = some j → X ∈ exampleGrammar.map Prod.fst)) :=
  ⟨rfl, transitions_complete_over_keys exampleGrammar exampleStates exampleTable
    exampleTransitions rfl⟩

/-- C4 as stated fails. In the run on the grammar of `main`, the goto of state 0 over the
terminal `a` is non-empty and the transition map has no entry for `(0, a)`; and neither for
that grammar nor for the expression grammar of end-to-end example 2 does any of the terminals
`a`, `b`, `+`, `*` label a transition. -/
theorem transitions_incomplete_on_terminals :
    (∃ states table trans,
      constructLR0ParsingTable mainGrammar = .ok (states, table, trans) ∧
      0 < states.length ∧
      (∃ r, gotoLR0 (states.getD 0 []) "a" mainGrammar = .ok r ∧ r ≠ []) ∧
      mapFind (0, "a") trans = none ∧
      ∀ e ∈ trans, e.1.2 ≠ "a" ∧ e.1.2 ≠ "b" ∧ e.1.2 ≠ "+" ∧ e.1.2 ≠ "*") ∧
    (∃ states table trans,
      constructLR0ParsingTable expressionGrammar = .ok (states, table, trans) ∧
      ∀ e ∈ trans, e.1.2 ≠ "a" ∧ e.1.2 ≠ "b" ∧ e.1.2 ≠ "+" ∧ e.1.2 ≠ "*") := by
  refine ⟨⟨_, _, _, rfl, by decide, ⟨_, rfl, by decide⟩, by decide, by decide⟩,
    ⟨_, _, _, rfl, by decide⟩⟩

/-- C5. States are deduplicated by set equality: for every grammar, no two distinct indices
`i`, `j` of the state list returned by `constructLR0ParsingTable` hold the same set of
items. -/
theorem states_pairwise_distinct (g : Grammar) (states : List ItemSet)
    (table : List (List String)) (trans : Transitions)
    (h : constructLR0ParsingTable g = .ok (states, table, trans))
    (i j : Nat) (hi : i < states.length) (hj : j < states.length) (hij : i ≠ j) :
    ¬ (∀ x, x ∈ states.getD i [] ↔ x ∈ states.getD j []) := by
  have hrun := run_of_ok h
  intro hsame
  have heq : states.getD i [] = states.getD j [] :=
    sorted_ext (hrun.statesOk.sorted _ (getD_mem hi)) (hrun.statesOk.sorted _ (getD_mem hj)) hsame
  have h1 := findIndex_getD (d := []) hrun.statesOk.nodup hi
  have h2 := findIndex_getD (d := []) hrun.statesOk.nodup hj
  rw [heq, h2] at h1
  exact hij h1.symm

theorem states_pairwise_distinct_witness :
    constructLR0ParsingTable exampleGrammar =
      .ok (exampleStates, exampleTable, exampleTransitions) ∧
    0 < exampleStates.length ∧ 1 < exampleStates.length ∧ 0 ≠ 1 ∧
    ¬ (∀ x, x ∈ exampleStates.getD 0 [] ↔ x ∈ exampleStates.getD 1 []) :=
  ⟨rfl, by decide, by decide, by decide,
    states_pairwise_distinct exampleGrammar exampleStates exampleTable exampleTransitions rfl
      0 1 (by decide) (by decide) (by decide)⟩

/-- C6. Construction terminates. For every grammar: the loops of `closureLR0` end on every
seed, within the fuel computed from the grammar, and `closureLR0` returns when the dots of the
seed are in range (otherwise `substr` throws); the worklist loop of
`constructLR0ParsingTable` over the growing state list ends within its fuel, one round per
set of items over the texts of the grammar; `constructLR0ParsingTable` returns the state
list when the grammar is not empty and its keys are one character long (otherwise `items[0]`
is missing or `substr` throws); and a returned state list has at most `2 ^ n` states, `n` the
number of items over the texts of the grammar. -/
theorem construction_terminates (g : Grammar) :
    (∀ seed, closureLR0 seed g ≠ .error .outOfFuel) ∧
    (∀ seed, (∀ x ∈ seed, 0 ≤ x.dotPosition ∧ x.dotPosition ≤ (x.production.length : Int)) →
      ∃ c, closureLR0 seed g = .ok c) ∧
    constructLR0ParsingTable g ≠ .error .outOfFuel ∧
    (g ≠ [] → (∀ k ∈ g.map Prod.fst, k.length = 1) →
      ∃ states table trans, constructLR0ParsingTable g = .ok (states, table, trans)) ∧
    (∀ states table trans, constructLR0ParsingTable g = .ok (states, table, trans) →
      states.length ≤ 2 ^ (itemUniverse g).length) := by
  refine ⟨?_, ?_, ?_, ?_, ?_⟩
  · intro seed hf
    rcases closureLR0_total g seed with ⟨c, hc⟩ | ⟨h1, _⟩
    · rw [hc] at hf; cases hf
    · rw [h1] at hf; cases hf
  · intro seed hr
    rcases closureLR0_total g seed with h | ⟨_, h2⟩
    · exact h
    · exact absurd hr h2
  · intro hf
    rcases construct_total g with ⟨r, hr⟩ | ⟨h1, _⟩ | ⟨h1, _⟩
    · rw [hr] at hf; cases hf
    · rw [h1] at hf; cases hf
    · rw [h1] at hf; cases hf
  · intro hne hk
    rcases construct_total g with ⟨⟨states, table, trans⟩, hr⟩ | ⟨_, h2⟩ | ⟨_, k, hk1, hk2⟩
    · exact ⟨states, table, trans, hr⟩
    · exact absurd h2 hne
    · exact absurd (hk k hk1) hk2
  · intro states table trans h
    exact (run_of_ok h).statesOk.length_le

theorem construction_terminates_witness :
    closureLR0 [{ production := "E", dotPosition := 0 }] mainGrammar ≠ .error .outOfFuel ∧
    constructLR0ParsingTable mainGrammar ≠ .error .outOfFuel ∧
    ∃ states table trans,
      constructLR0ParsingTable mainGrammar = .ok (states, table, trans) :=
  ⟨(construction_terminates mainGrammar).1 _,
    (construction_terminates mainGrammar).2.2.1,
    (construction_terminates mainGrammar).2.2.2.1 (by decide) (by decide)⟩

/-- C7. Every state is reachable: for every grammar and every index `j ≥ 1` of the state
list returned by `constructLR0ParsingTable`, a sequence of entries of the returned transition
map leads from state 0 to state `j`. -/
theorem states_reachable (g : Grammar) (states : List ItemSet) (table : List (List String))
    (trans : Transitions) (h : constructLR0ParsingTable g = .ok (states, table, trans))
    (j : Nat) (hj1 : 1 ≤ j) (hj : j < states.length) :
    Relation.TransGen (Edge trans) 0 j := by
  have hrun := run_of_ok h
  rcases Relation.reflTransGen_iff_eq_or_transGen.1 (hrun.transOk.reach j hj) with h0 | ht
  · omega
  · exact ht

theorem states_reachable_witness :
    constructLR0ParsingTable exampleGrammar =
      .ok (exampleStates, exampleTable, exampleTransitions) ∧
    1 ≤ 1 ∧ 1 < exampleStates.length ∧ Relation.TransGen (Edge exampleTransitions) 0 1 :=
  ⟨rfl, by decide, by decide,
    states_reachable exampleGrammar exampleStates exampleTable exampleTransitions rfl
      1 (by decide) (by decide)⟩

/-- C8. Dot positions stay in range: for every grammar whose keys are all one character
long, `substr` never throws in `constructLR0ParsingTable`, which returns when the grammar is
not empty, and every item `(production, dotPosition)` of every returned state has
`0 ≤ dotPosition ≤ length(production)`. -/
theorem dot_positions_in_range (g : Grammar) (hk : ∀ k ∈ g.map Prod.fst, k.length = 1) :
    constructLR0ParsingTable g ≠ .error .outOfRange ∧
    (g ≠ [] → ∃ states table trans, constructLR0ParsingTable g = .ok (states, table, trans)) ∧
    ∀ states table trans, constructLR0ParsingTable g = .ok (states, table, trans) →
      ∀ s ∈ states, ∀ x ∈ s,
        0 ≤ x.dotPosition ∧ x.dotPosition ≤ (x.production.length : Int) := by
  refine ⟨?_, ?_, ?_⟩
  · intro hf
    rcases construct_total g with ⟨r, hr⟩ | ⟨h1, _⟩ | ⟨_, k, hk1, hk2⟩
    · rw [hr] at hf; cases hf
    · rw [h1] at hf; cases hf
    · exact absurd (hk k hk1) hk2
  · intro hne
    rcases construct_total g with ⟨⟨states, table, trans⟩, hr⟩ | ⟨_, h2⟩ | ⟨_, k, hk1, hk2⟩
    · exact ⟨states, table, trans, hr⟩
    · exact absurd h2 hne
    · exact absurd (hk k hk1) hk2
  · intro states table trans h s hs x hx
    exact (run_of_ok h).statesOk.inRange s hs x hx

theorem dot_positions_in_range_witness :
    (∀ k ∈ mainGrammar.map Prod.fst, k.length = 1) ∧
    constructLR0ParsingTable mainGrammar ≠ .error .outOfRange ∧
    (mainGrammar ≠ [] →
      ∃ states table trans, constructLR0ParsingTable mainGrammar = .ok (states, table, trans)) ∧
    ∀ states table trans, constructLR0ParsingTable mainGrammar = .ok (states, table, trans) →
      ∀ s ∈ states, ∀ x ∈ s,
        0 ≤ x.dotPosition ∧ x.dotPosition ≤ (x.production.length : Int) :=
  ⟨by decide, dot_positions_in_range mainGrammar (by decide)⟩

/-- C9. End-to-end example 1: for the grammar `{S': [S], S: [a]}`,
`constructLR0ParsingTable` returns exactly 2 states; state 0 is the set of the two items with
texts `S` and `a`, both at dot 0; and the transition map sends `(0, S)` to state 1. -/
theorem example_one :
    ∃ states table trans,
      constructLR0ParsingTable exampleGrammar = .ok (states, table, trans) ∧
      states.length = 2 ∧
      states.getD 0 [] =
        [{ production := "S", dotPosition := 0 }, { production := "a", dotPosition := 0 }] ∧
      mapFind (0, "S") trans = some 1 :=
  ⟨exampleStates, exampleTable, exampleTransitions, rfl, rfl, rfl, rfl⟩

/-- C10, the run that breaks it. For the grammar `{S': [S], S: [a]}`, state 1 holds the
complete item of `S' -> S` (text `S`, dot 1), and the last column of row 1 of the table is
empty, not `accept`; no cell of the table is `accept`. -/
theorem accept_missing_on_example :
    ∃ states table trans,
      constructLR0ParsingTable exampleGrammar = .ok (states, table, trans) ∧
      grammarFind "S'" exampleGrammar = some ["S"] ∧
      ({ production := "S", dotPosition := 1 } : LR0Item) ∈ states.getD 1 [] ∧
      (table.getD 1 []).getLast? = some "" ∧
      ∀ row ∈ table, ∀ cell ∈ row, cell ≠ "accept" :=
  ⟨exampleStates, exampleTable, exampleTransitions, rfl, rfl, by decide, rfl, by decide⟩

/-! ## The claims on goto, closure of complete items and transitions -/

/-- C11, the run that breaks it. In the run on the grammar of `main`, state 2 holds the
complete item of the production `F` (dot 1), which is a production of `T`; the column of `T`
is column 2, and the cell of row 2 in that column is empty: the reduce action is in column 1,
the column of the key `F` that the first character of the production spells. -/
theorem reduce_misfiled_on_main :
    ∃ states table trans,
      constructLR0ParsingTable mainGrammar = .ok (states, table, trans) ∧
      ({ production := "F", dotPosition := 1 } : LR0Item) ∈ states.getD 2 [] ∧
      grammarFind "T" mainGrammar = some ["TE", "F"] ∧
      findIndex "T" (mainGrammar.map Prod.fst) = 2 ∧
      (table.getD 2 []).getD 2 "" = "" ∧
      (table.getD 2 []).getD 1 "" = "reduce 2" := by
  refine ⟨_, _, _, rfl, by decide, rfl, by decide, by decide, by decide⟩

/-- C12. Goto only advances or re-closes. For every grammar, item set `I` and symbol `X`:
`gotoLR0(I, X)` returns when the dots of `I` are in range and `X` is one character; and every
item of what it returns either is `(p, d+1)` for an item `(p, d)` of `I` whose symbol after the
dot is `X`, with dot position at least 1, or has dot position 0 and is the item of a
production of some key, added by the trailing closure. -/
theorem goto_advances_or_recloses (g : Grammar) (I : ItemSet) (X : String) :
    ((∀ x ∈ I, 0 ≤ x.dotPosition ∧ x.dotPosition ≤ (x.production.length : Int)) →
      X.length = 1 → ∃ r, gotoLR0 I X g = .ok r) ∧
    ∀ r, gotoLR0 I X g = .ok r → ∀ x ∈ r,
      (∃ it ∈ I, substr it.production it.dotPosition 1 = .ok X ∧
        x = { production := it.production, dotPosition := it.dotPosition + 1 } ∧
        1 ≤ x.dotPosition) ∨
      (x.dotPosition = 0 ∧
        ∃ key prods, grammarFind key g = some prods ∧ x.production ∈ prods) := by
  constructor
  · intro hr hX
    rcases gotoLR0_total g I X with h | ⟨_, h2 | h2⟩
    · exact h
    · exact absurd hr h2
    · exact absurd hX h2
  · intro r hgo x hx
    obtain ⟨_, _, _, _, _, h6, _⟩ := gotoLR0_ok hgo
    rcases h6 x hx with ⟨it, hit, hs, rfl⟩ | h
    · left
      refine ⟨it, hit, hs, rfl, ?_⟩
      have := (substr_ok_iff.1 ⟨X, hs⟩).1
      simp only
      omega
    · exact Or.inr h

/-- C13. Goto signals no transition by the empty set: for every grammar, item set `I` and
symbol `X`, if no item of `I` has `X` as the symbol after its dot, then whatever
`gotoLR0(I, X)` returns is the empty set, and it does return the empty set when the dots of
`I` are in range. -/
theorem goto_empty_without_match (g : Grammar) (I : ItemSet) (X : String)
    (hno : ∀ it ∈ I, substr it.production it.dotPosition 1 ≠ .ok X) :
    (∀ r, gotoLR0 I X g = .ok r → r = []) ∧
    ((∀ x ∈ I, 0 ≤ x.dotPosition ∧ x.dotPosition ≤ (x.production.length : Int)) →
      gotoLR0 I X g = .ok []) := by
  have hnil : ∀ r, gotoLR0 I X g = .ok r → r = [] := by
    intro r hgo
    obtain ⟨_, _, _, _, _, _, h7⟩ := gotoLR0_ok hgo
    by_contra hne
    obtain ⟨x, it, hit, hs, _⟩ := h7.1 hne
    exact hno it hit hs
  refine ⟨hnil, ?_⟩
  intro hr
  rcases advanceItems_total X I [] with ⟨newItems, ha⟩ | ⟨_, h2⟩
  · have hnew : newItems = [] := by
      cases hn : newItems with
      | nil => rfl
      | cons y ys =>
        obtain ⟨hmem, _, _⟩ := advanceItems_ok ha
        rcases (hmem y).1 (by rw [hn]; exact List.mem_cons_self _ _) with h | ⟨it, hit, hs, _⟩
        · exact absurd h (List.not_mem_nil _)
        · exact absurd hs (hno it hit)
    unfold gotoLR0
    rw [ha, hnew]
    exact closureLR0_nil g
  · exact absurd hr h2

theorem goto_empty_without_match_witness :
    (∀ it ∈ ([{ production := "S", dotPosition := 1 }] : ItemSet),
      substr it.production it.dotPosition 1 ≠ .ok "S") ∧
    gotoLR0 [{ production := "S", dotPosition := 1 }] "S" exampleGrammar = .ok [] :=
  have hno : ∀ it ∈ ([{ production := "S", dotPosition := 1 }] : ItemSet),
      substr it.production it.dotPosition 1 ≠ .ok "S" := by decide
  ⟨hno, (goto_empty_without_match exampleGrammar [{ production := "S", dotPosition := 1 }] "S"
    hno).2 (by decide)⟩

theorem substr_at_end (s : String) : substr s (s.length : Int) 1 = .ok "" := by
  unfold substr
  rw [if_pos ⟨Int.ofNat_nonneg _, le_refl _⟩]
  congr 1
  have h1 : (s.length : Int).toNat = s.data.length := Int.toNat_ofNat _
  rw [h1, List.drop_length]
  rfl

theorem grammarFind_eq_none {g : Grammar} {sym : String} (h : sym ∉ g.map Prod.fst) :
    grammarFind sym g = none := by
  unfold grammarFind
  rw [Option.map_eq_none', List.find?_eq_none]
  intro e he hd
  apply h
  rw [List.mem_map]
  exact ⟨e, he, by simpa using hd⟩

/-- C14, as the code has it. Complete items contribute nothing to a closure when the empty
text is not a key of the grammar: for every such grammar and every item whose dot position
equals the length of its production, `closureLR0` of that item returns exactly the set of
that one item. -/
theorem closure_of_complete_item (g : Grammar) (item : LR0Item)
    (hkey : "" ∉ g.map Prod.fst)
    (hc : item.dotPosition = (item.production.length : Int)) :
    closureLR0 [item] g = .ok [item] := by
  have hs : substr item.production item.dotPosition 1 = .ok "" := by
    rw [hc]; exact substr_at_end _
  have hv : visitItem g item [item] false = .ok ([item], false) := by
    unfold visitItem
    rw [hs]
    simp only [grammarFind_eq_none hkey]
  apply closureLR0_fixed
  unfold scanPass
  simp only [List.length_singleton]
  rw [show 1 + (allProductions g).length + 1 = ((allProductions g).length + 1) + 1 by omega]
  rw [scanFrom, hv]
  simp [itemLt_irrefl]

theorem closure_of_complete_item_witness :
    "" ∉ exampleGrammar.map Prod.fst ∧
    ({ production := "S", dotPosition := 1 } : LR0Item).dotPosition =
      (({ production := "S", dotPosition := 1 } : LR0Item).production.length : Int) ∧
    closureLR0 [{ production := "S", dotPosition := 1 }] exampleGrammar =
      .ok [{ production := "S", dotPosition := 1 }] :=
  ⟨by decide, by decide,
    closure_of_complete_item exampleGrammar { production := "S", dotPosition := 1 }
      (by decide) (by decide)⟩

/-- C14 as stated fails. With the empty text as a key of the grammar, the closure of the
complete item `(x, 1)` also holds `(a, 0)`, the item of the production of that key. -/
theorem closure_of_complete_item_grows :
    ({ production := "x", dotPosition := 1 } : LR0Item).dotPosition =
      (({ production := "x", dotPosition := 1 } : LR0Item).production.length : Int) ∧
    closureLR0 [{ production := "x", dotPosition := 1 }] emptyKeyGrammar =
      .ok [{ production := "a", dotPosition := 0 }, { production := "x", dotPosition := 1 }] ∧
    closureLR0 [{ production := "x", dotPosition := 1 }] emptyKeyGrammar ≠
      .ok [{ production := "x", dotPosition := 1 }] := by
  refine ⟨by decide, rfl, ?_⟩
  intro h
  have h2 : closureLR0 [{ production := "x", dotPosition := 1 }] emptyKeyGrammar =
      .ok [{ production := "a", dotPosition := 0 }, { production := "x", dotPosition := 1 }] :=
    rfl
  rw [h2] at h
  simp at h

theorem mapFind_of_mem {tr : Transitions} {e : (Nat × String) × Nat} (he : e ∈ tr) :
    ∃ v, mapFind e.1 tr = some v := by
  unfold mapFind
  cases hf : tr.find? (fun x => decide (x.1 = e.1)) with
  | none =>
    have := List.find?_eq_none.1 hf e he
    simp at this
  | some x => exact ⟨x.2, rfl⟩

/-- C17. Only keys of the grammar label a transition: for every grammar and every entry
`(i, X) -> j` of the transition map returned by `constructLR0ParsingTable`, `X` is a key of
the grammar map; so the map has no entry on a symbol that is not a key (a terminal). -/
theorem only_keys_label_transitions (g : Grammar) (states : List ItemSet)
    (table : List (List String)) (trans : Transitions)
    (h : constructLR0ParsingTable g = .ok (states, table, trans)) :
    (∀ i X j, mapFind (i, X) trans = some j → X ∈ g.map Prod.fst) ∧
    (∀ e ∈ trans, e.1.2 ∈ g.map Prod.fst) ∧
    (∀ i X, X ∉ g.map Prod.fst → mapFind (i, X) trans = none) := by
  have hrun := run_of_ok h
  refine ⟨hrun.transOk.isKey, ?_, ?_⟩
  · intro e he
    obtain ⟨v, hv⟩ := mapFind_of_mem he
    exact hrun.transOk.isKey e.1.1 e.1.2 v hv
  · intro i X hX
    cases hf : mapFind (i, X) trans with
    | none => rfl
    | some j => exact absurd (hrun.transOk.isKey i X j hf) hX

theorem only_keys_label_transitions_witness :
    constructLR0ParsingTable exampleGrammar =
      .ok (exampleStates, exampleTable, exampleTransitions) ∧
    ∀ i, mapFind (i, "a") exampleTransitions = none :=
  ⟨rfl, fun i =>
    (only_keys_label_transitions exampleGrammar exampleStates exampleTable exampleTransitions
      rfl).2.2 i "a" (by decide)⟩

/-- C18. The second transition pass is a no-op. For every grammar, what
`constructLR0ParsingTable` returns as states and transitions is what the start state and the
worklist loop alone (`buildAutomaton`) return, every returned state is non-empty, and the loop
of lines 107-113 leaves the transitions as they are at every state; conversely, whenever the
worklist loop returns, `constructLR0ParsingTable` returns with the same states and
transitions. -/
theorem second_pass_adds_nothing (g : Grammar) :
    (∀ states table trans, constructLR0ParsingTable g = .ok (states, table, trans) →
      buildAutomaton g = .ok (states, trans) ∧
      (∀ s ∈ states, s ≠ []) ∧
      (∀ i, i < states.length → secondPass g states i g trans = .ok trans)) ∧
    (∀ states trans, buildAutomaton g = .ok (states, trans) →
      ∃ table, constructLR0ParsingTable g = .ok (states, table, trans)) := by
  constructor
  · intro states table trans h
    have hrun := run_of_ok h
    obtain ⟨item0, rest, state0, tail, hgen, hc, hw, _⟩ := hrun.start
    refine ⟨?_, hrun.statesOk.nonempty, ?_⟩
    · unfold buildAutomaton
      simp only [hgen, hc]
      exact hw
    · intro i hi
      exact secondPass_noop hrun.statesOk g (hrun.done i hi)
  · intro states trans h
    unfold buildAutomaton at h
    unfold constructLR0ParsingTable
    cases hgen : generateLR0Items g with
    | nil => simp only [hgen] at h; cases h
    | cons item0 rest =>
      simp only [hgen] at h ⊢
      cases hc : closureLR0 [item0] g with
      | error e => simp only [hc] at h; cases h
      | ok state0 =>
        simp only [hc] at h ⊢
        rw [h]
        simp only
        obtain ⟨hs0, ht0⟩ := initial_ok hgen hc
        obtain ⟨_, _, hs, _, hd⟩ :=
          worklist_ok _ h (Nat.zero_le _) hs0 ht0 (fun i2 hi2 => absurd hi2 (Nat.not_lt_zero _))
        rw [fillTable_eq hs hd _ _ (fun i hi => List.mem_range.1 hi)]
        exact ⟨_, rfl⟩

/-! ## Maps built from entries in any order -/

theorem textLt_asymm {a b : List Char} (h : textLt a b = true) : textLt b a = false := by
  by_contra hc
  have := textLt_trans h (by simpa using hc)
  rw [textLt_irrefl] at this
  exact Bool.noConfusion this

theorem keys_grammarInsert {e : String × List String} {m : Grammar} {k : String} :
    k ∈ (grammarInsert e m).map Prod.fst ↔ k = e.1 ∨ k ∈ m.map Prod.fst := by
  induction m with
  | nil => simp [grammarInsert]
  | cons f rest ih =>
    unfold grammarInsert
    split
    · simp
    · split
      · rename_i h
        simp only [List.map_cons, List.mem_cons]
        constructor
        · exact Or.inr
        · rintro (h1 | h1)
          · exact Or.inl (h1.trans h)
          · exact h1
      · simp only [List.map_cons, List.mem_cons, ih]
        tauto

theorem mem_grammarInsert {e : String × List String} {m : Grammar}
    (h : e.1 ∉ m.map Prod.fst) {x : String × List String} :
    x ∈ grammarInsert e m ↔ x = e ∨ x ∈ m := by
  induction m with
  | nil => simp [grammarInsert]
  | cons f rest ih =>
    have hf : e.1 ≠ f.1 := fun he => h (by simp [he])
    have hrest : e.1 ∉ rest.map Prod.fst := fun he => h (by simp at he ⊢; exact Or.inr he)
    unfold grammarInsert
    split
    · simp
    · simp only [List.mem_cons, ih hrest]
      tauto

theorem keysSorted_grammarInsert {e : String × List String} {m : Grammar}
    (hs : KeysSorted m) : KeysSorted (grammarInsert e m) := by
  induction m with
  | nil => simp [grammarInsert, KeysSorted]
  | cons f rest ih =>
    unfold KeysSorted at hs ih ⊢
    rw [List.pairwise_cons] at hs
    unfold grammarInsert
    split
    · rename_i h
      refine List.pairwise_cons.2 ⟨?_, List.pairwise_cons.2 hs⟩
      intro a ha
      rcases List.mem_cons.1 ha with rfl | ha
      · exact h
      · exact textLt_trans h (hs.1 a ha)
    · split
      · exact List.pairwise_cons.2 hs
      · rename_i h1 h2
        refine List.pairwise_cons.2 ⟨?_, ih hs.2⟩
        intro a ha
        have hk : a.1 ∈ (grammarInsert e rest).map Prod.fst := List.mem_map.2 ⟨a, ha, rfl⟩
        rcases keys_grammarInsert.1 hk with hk | hk
        · rw [hk]
          by_contra hc
          exact h2 (String.ext (textLt_total (by simpa using h1) (by simpa using hc)))
        · obtain ⟨b, hb, hbk⟩ := List.mem_map.1 hk
          rw [← hbk]
          exact hs.1 b hb

theorem grammarOf_spec (l : List (String × List String)) : ∀ m : Grammar,
    KeysSorted m → (l.map Prod.fst).Nodup → (∀ e ∈ l, e.1 ∉ m.map Prod.fst) →
      KeysSorted (l.foldl (fun m e => grammarInsert e m) m) ∧
      ∀ x, x ∈ l.foldl (fun m e => grammarInsert e m) m ↔ x ∈ m ∨ x ∈ l := by
  induction l with
  | nil => intro m hs _ _; simpa using hs
  | cons e rest ih =>
    intro m hs hn hd
    rw [List.map_cons, List.nodup_cons] at hn
    have habs : e.1 ∉ m.map Prod.fst := hd e (List.mem_cons_self _ _)
    have hd2 : ∀ f ∈ rest, f.1 ∉ (grammarInsert e m).map Prod.fst := by
      intro f hf hk
      rcases keys_grammarInsert.1 hk with hk | hk
      · exact hn.1 (hk ▸ List.mem_map.2 ⟨f, hf, rfl⟩)
      · exact hd f (List.mem_cons_of_mem _ hf) hk
    obtain ⟨h1, h2⟩ := ih (grammarInsert e m) (keysSorted_grammarInsert hs) hn.2 hd2
    refine ⟨h1, ?_⟩
    intro x
    rw [List.foldl_cons, h2, mem_grammarInsert habs, List.mem_cons]
    tauto

/-- Two maps with the same entries are the same map. -/
theorem keysSorted_ext {s t : Grammar} (hs : KeysSorted s) (ht : KeysSorted t)
    (h : ∀ x, x ∈ s ↔ x ∈ t) : s = t := by
  induction s generalizing t with
  | nil =>
    cases t with
    | nil => rfl
    | cons y ys => exact absurd ((h y).2 (by simp)) (by simp)
  | cons x xs ih =>
    cases t with
    | nil => exact absurd ((h x).1 (by simp)) (by simp)
    | cons y ys =>
      unfold KeysSorted at hs ht ih
      rw [List.pairwise_cons] at hs ht
      have hxy : x = y := by
        have hx : x ∈ y :: ys := (h x).1 (by simp)
        have hy : y ∈ x :: xs := (h y).2 (by simp)
        rcases List.mem_cons.1 hx with e | hx
        · exact e
        · rcases List.mem_cons.1 hy with e | hy
          · exact e.symm
          · have h1 := ht.1 x hx
            have h2 := hs.1 y hy
            rw [textLt_asymm h1] at h2
            exact Bool.noConfusion h2
      subst hxy
      have hirr : ∀ l : Grammar, (∀ a ∈ l, textLt x.1.data a.1.data = true) → x ∉ l := by
        intro l hl hx
        have := hl x hx
        rw [textLt_irrefl] at this
        exact Bool.noConfusion this
      congr 1
      apply ih hs.2 ht.2
      intro a
      constructor
      · intro ha
        have : a ∈ x :: ys := (h a).1 (by simp [ha])
        rcases List.mem_cons.1 this with rfl | h2
        · exact absurd ha (hirr xs hs.1)
        · exact h2
      · intro ha
        have : a ∈ x :: xs := (h a).2 (by simp [ha])
        rcases List.mem_cons.1 this with rfl | h2
        · exact absurd ha (hirr ys ht.1)
        · exact h2

/-- The map does not depend on the order in which its entries are inserted. -/
theorem grammarOf_perm {p1 p2 : List (String × List String)} (hperm : p1.Perm p2)
    (hkeys : (p1.map Prod.fst).Nodup) : grammarOf p1 = grammarOf p2 := by
  have hkeys2 : (p2.map Prod.fst).Nodup := (hperm.map Prod.fst).nodup_iff.1 hkeys
  have hnil : KeysSorted [] := by simp [KeysSorted]
  obtain ⟨s1, m1⟩ := grammarOf_spec p1 [] hnil hkeys (fun e _ => by simp)
  obtain ⟨s2, m2⟩ := grammarOf_spec p2 [] hnil hkeys2 (fun e _ => by simp)
  apply keysSorted_ext s1 s2
  intro x
  rw [m1, m2]
  simp only [List.not_mem_nil, false_or]
  exact hperm.mem_iff

/-- C16. Order independence: for any two presentations of the same grammar, lists of the same
entries with distinct keys in different insertion orders, the maps built are the same map, so
`constructLR0ParsingTable` returns the same result on both; the automatons have the same
number of states and the same transitions under the identity relabeling of state indices. -/
theorem order_independence (p1 p2 : List (String × List String)) (hperm : p1.Perm p2)
    (hkeys : (p1.map Prod.fst).Nodup) :
    constructLR0ParsingTable (grammarOf p1) = constructLR0ParsingTable (grammarOf p2) ∧
    ∀ states1 table1 trans1 states2 table2 trans2,
      constructLR0ParsingTable (grammarOf p1) = .ok (states1, table1, trans1) →
      constructLR0ParsingTable (grammarOf p2) = .ok (states2, table2, trans2) →
        states1.length = states2.length ∧
        ∃ relabel : Nat → Nat, Function.Bijective relabel ∧
          (∀ i, i < states1.length → relabel i < states2.length) ∧
          (∀ i, i < states1.length → states2.getD (relabel i) [] = states1.getD i []) ∧
          ∀ i X j, mapFind (i, X) trans1 = some j ↔
            mapFind (relabel i, X) trans2 = some (relabel j) := by
  have hg := grammarOf_perm hperm hkeys
  refine ⟨by rw [hg], ?_⟩
  intro states1 table1 trans1 states2 table2 trans2 h1 h2
  rw [hg, h2] at h1
  simp only [Except.ok.injEq, Prod.mk.injEq] at h1
  obtain ⟨rfl, _, rfl⟩ := h1
  exact ⟨rfl, id, Function.bijective_id, fun i hi => hi, fun i _ => rfl, fun i X j => Iff.rfl⟩

theorem order_independence_witness :
    grammarOf [("E", ["E+T", "T"]), ("T", ["TE", "F"]), ("F", ["F*", "a", "b"])] = mainGrammar ∧
    constructLR0ParsingTable
        (grammarOf [("E", ["E+T", "T"]), ("T", ["TE", "F"]), ("F", ["F*", "a", "b"])]) =
      constructLR0ParsingTable
        (grammarOf [("F", ["F*", "a", "b"]), ("E", ["E+T", "T"]), ("T", ["TE", "F"])]) :=
  ⟨by decide,
    (order_independence [("E", ["E+T", "T"]), ("T", ["TE", "F"]), ("F", ["F*", "a", "b"])]
      [("F", ["F*", "a", "b"]), ("E", ["E+T", "T"]), ("T", ["TE", "F"])]
      (by decide) (by decide)).1⟩

/-! ## The claims on the cells of the table -/

/-- C15, as the code has it. Conflicts are not reported: the result of
`constructLR0ParsingTable` is the states, the table and the transitions only, and for every
grammar and state `i` every cell of row `i` is empty or one single action, `reduce <c+1>` in
the key column `c` and `accept` in the last column. When complete items of the state compete
for the cell of column `c` (two different complete productions filed under that column, or one
of them and a transition on the key of the column) the cell holds `reduce <c+1>`, whatever
else the state and the transition map hold. -/
theorem conflicts_not_reported (g : Grammar) (states : List ItemSet)
    (table : List (List String)) (trans : Transitions)
    (h : constructLR0ParsingTable g = .ok (states, table, trans))
    (i : Nat) (hi : i < states.length) :
    (∀ c, c < g.length →
      (table.getD i []).getD c "" = "" ∨
        (table.getD i []).getD c "" = "reduce " ++ toString (c + 1)) ∧
    ((table.getD i []).getD g.length "" = "" ∨
      (table.getD i []).getD g.length "" = "accept") ∧
    (∀ c, ∀ item ∈ states.getD i [], WritesReduce g item c →
      (table.getD i []).getD c "" = "reduce " ++ toString (c + 1)) := by
  obtain ⟨_, h2, h3, h4⟩ := run_cells (run_of_ok h) hi
  refine ⟨?_, ?_, ?_⟩
  · intro c hc
    by_cases hw : ∃ item ∈ states.getD i [], WritesReduce g item c
    · exact Or.inr ((h2 c hc).1 hw)
    · exact Or.inl ((h2 c hc).2 hw)
  · by_cases hw : ∃ item ∈ states.getD i [], WritesAccept item
    · exact Or.inr (h3 hw)
    · exact Or.inl (h4 hw)
  · intro c item hitem hw
    exact (h2 c hw.2.2.2).1 ⟨item, hitem, hw⟩

theorem conflicts_not_reported_witness :
    constructLR0ParsingTable exampleGrammar =
      .ok (exampleStates, exampleTable, exampleTransitions) ∧
    1 < exampleStates.length ∧
    (exampleTable.getD 1 []).getD 0 "" = "reduce " ++ toString (0 + 1) :=
  ⟨rfl, by decide,
    (conflicts_not_reported exampleGrammar exampleStates exampleTable exampleTransitions rfl
      1 (by decide)).2.2 0 { production := "S", dotPosition := 1 } (by decide)
      ⟨by decide, by decide, by decide, by decide⟩⟩

/-- C15 as stated fails. In the run on the grammar `A -> AA | A`, state 2 holds the two
different complete items `(A, 1)` and `(AA, 2)`, both filed under column 0, and the transition
map has the entry `(2, A) -> 2` on the key of that column; the returned table is three rows
of the cells `reduce 1` and empty, with the single action `reduce 1` in cell `(2, 0)`, and
nothing in the result indicates a conflict. -/
theorem conflict_left_silent :
    ∃ states table trans,
      constructLR0ParsingTable conflictGrammar = .ok (states, table, trans) ∧
      ({ production := "A", dotPosition := 1 } : LR0Item) ∈ states.getD 2 [] ∧
      ({ production := "AA", dotPosition := 2 } : LR0Item) ∈ states.getD 2 [] ∧
      WritesReduce conflictGrammar { production := "A", dotPosition := 1 } 0 ∧
      WritesReduce conflictGrammar { production := "AA", dotPosition := 2 } 0 ∧
      mapFind (2, "A") trans = some 2 ∧
      table = [["", ""], ["reduce 1", ""], ["reduce 1", ""]] := by
  refine ⟨_, _, _, rfl, by decide, by decide, ?_, ?_, rfl, rfl⟩
  · exact ⟨by decide, by decide, by decide, by decide⟩
  · exact ⟨by decide, by decide, by decide, by decide⟩

end LR0
